import Mathlib

/-!
# Verification of the sia-satellite transaction-pool admission engine

This file gives a shallow embedding, in Lean 4, of the transaction-pool
acceptance code of the repository (`modules/consensus/cache.go`: the
`transactionpool` part with `acceptTransactionSet`, `handleConflicts`,
`checkTransactionSetComposition`, `requiredFeesToExtendTpool`,
`relatedObjectIDs`, plus the bounded FIFO caches of the `consensus` part),
and proves properties of that embedding.

Modelling conventions:
* Go maps are embedded as association lists (`List (K × V)`) with
  overwrite-insert and erase; all pool maps are only ever looked up,
  inserted or erased by the embedded code, so a deterministic association
  list is a faithful determinization of the Go map.
* `types.Currency` (a 128-bit unsigned integer that in the fee path is
  produced from `float64` arithmetic) is embedded as `ℤ` with exact
  arithmetic; miner fees and fee requirements never approach 2^128 in
  any scenario used here, and the `float64` fee formula is embedded as
  the floor of its exact rational value.
* A set identifier (`modules.TransactionSetID`, the hash of the set's
  canonical encoding) is embedded as the transaction list itself: the
  canonical encoding is injective on transaction lists and the hash is
  collision-free by assumption.
* External collaborators (`isStandardTransactionSet`, which lives in
  another file of the repository, `transactionConfirmed`, and the
  consensus callback `txnFn`) are parameters of the embedding, collected
  in an `Env` record.
* `int` fields (`transactionListSize`) are embedded as `ℤ`; sizes stay
  far below 2^63 so overflow is immaterial.
-/

set_option maxHeartbeats 1000000

namespace SiaSat

/-! ## Association lists (embedding of Go maps) -/

/-- Lookup of a key in an association list (first matching entry). -/
def alookup {K V : Type} [DecidableEq K] (l : List (K × V)) (k : K) : Option V :=
  match l with
  | [] => none
  | (k0, v0) :: rest => if k = k0 then some v0 else alookup rest k

/-- Overwrite-insert into an association list: the new binding is placed in
front and any old binding of the same key removed, mirroring Go map
assignment (which keeps at most one binding per key). -/
def ains {K V : Type} [DecidableEq K] (k : K) (v : V) (l : List (K × V)) : List (K × V) :=
  (k, v) :: l.filter (fun p => p.1 ≠ k)

/-- Erase of a key, mirroring Go `delete`. -/
def aerase {K V : Type} [DecidableEq K] (k : K) (l : List (K × V)) : List (K × V) :=
  l.filter (fun p => p.1 ≠ k)

/-- The keys of an association list. -/
def akeys {K V : Type} (l : List (K × V)) : List K := l.map Prod.fst

/-- Worker of `dedupFirst`, carrying the elements already emitted. -/
def dedupFirstGo {α : Type} [DecidableEq α] (seen : List α) : List α → List α
  | [] => []
  | a :: rest =>
      if a ∈ seen then dedupFirstGo seen rest
      else a :: dedupFirstGo (a :: seen) rest

/-- Deduplication keeping the first occurrence of every element: the
determinization of collecting list elements into a Go `map[...]struct{}`
and iterating it. -/
def dedupFirst {α : Type} [DecidableEq α] (l : List α) : List α :=
  dedupFirstGo [] l

/-! ## Data model -/

/-- Embedding of `types.Transaction` as seen by the admission engine: the
stable identifier, the declared miner fees, the per-category related
object identifiers exactly as enumerated by `relatedObjectIDs` (for
derived identifiers such as `t.SiacoinOutputID(i)` the list holds the
already-derived value), and the transaction's contribution to the
canonical encoding length. -/
structure Tx where
  id : ℕ
  minerFees : List ℤ
  scInputParents : List ℕ
  scOutputIDs : List ℕ
  fcIDs : List ℕ
  fcRevisionParents : List ℕ
  spParents : List ℕ
  sfInputParents : List ℕ
  sfOutputIDs : List ℕ
  encLen : ℕ
  deriving DecidableEq, Repr, Inhabited

/-- A set identifier: the hash of the canonical encoding, embedded as the
transaction list itself (the encoding is injective, the hash collision-free). -/
abbrev SetID := List Tx

/-- Embedding of `modules.ConsensusChange` restricted to what the pool
reads from it: the object identifiers of the Siacoin-output, file-contract
and Siafund-output diffs. -/
structure Diff where
  scOids : List ℕ
  fcOids : List ℕ
  sfOids : List ℕ
  deriving DecidableEq, Repr, Inhabited

/-- All object identifiers touched by a diff, in the order the install
code of `handleConflicts` iterates them. -/
def diffOids (cc : Diff) : List ℕ := cc.scOids ++ cc.fcOids ++ cc.sfOids

/-- The errors the acceptance code can return. -/
inductive Err where
  | emptySet
  | duplicate
  | lowFees
  | nonStandard
  | consensusConflict (msg : String)
  deriving DecidableEq, Repr

/-- The external collaborators of the acceptance code:
`isStandard` embeds `isStandardTransactionSet` (returns the set size or an
error), `confirmed` embeds `tp.transactionConfirmed`, and `txnFn` embeds
the consensus set's atomic validation callback. -/
structure Env where
  isStandard : List Tx → Except Err ℕ
  confirmed : ℕ → Bool
  txnFn : List Tx → Except String Diff

/-- Embedding of the `TransactionPool` state touched by the acceptance
code. -/
structure Pool where
  transactionSets : List (SetID × List Tx)
  knownObjects : List (ℕ × SetID)
  transactionSetDiffs : List (SetID × Diff)
  transactionListSize : ℤ
  transactionHeights : List (ℕ × ℕ)
  blockHeight : ℕ
  deriving DecidableEq, Repr

/-- The empty pool. -/
def emptyPool (bh : ℕ) : Pool :=
  { transactionSets := []
    knownObjects := []
    transactionSetDiffs := []
    transactionListSize := 0
    transactionHeights := []
    blockHeight := bh }

/-! ## Pure helper functions of the acceptance code -/

/-- `types.EncodedLen(transactionSet(ts))`: the canonical encoding writes
an 8-byte length prefix followed by each transaction's encoding. -/
def encLenSet (ts : List Tx) : ℤ :=
  8 + ((ts.map Tx.encLen).sum : ℤ)

/-- The related object identifiers of a single transaction, in the order
the Go loop of `relatedObjectIDs` visits the categories. -/
def relatedOids (t : Tx) : List ℕ :=
  t.scInputParents ++ t.scOutputIDs ++ t.fcIDs ++ t.fcRevisionParents ++
    t.spParents ++ t.sfInputParents ++ t.sfOutputIDs

/-- `relatedObjectIDs`: all object ids related to the transactions of a
set; the Go code collects them into a map (set semantics), embedded here
as first-occurrence deduplication. -/
def relatedObjectIDs (ts : List Tx) : List ℕ :=
  dedupFirst (ts.flatMap relatedOids)

/-- The conflict lookup loop shared by `acceptTransactionSet` and the
recursive step of `handleConflicts`: each object id found in
`knownObjects` contributes the owning set id. -/
def findConflicts (tp : Pool) (oids : List ℕ) : List SetID :=
  oids.filterMap (fun oid => alookup tp.knownObjects oid)

/-- The `conflictMap` of `handleConflicts`: for every conflicting set id,
every transaction of the registered set is mapped to that id. -/
def buildConflictMap (tp : Pool) (conflicts : List SetID) : List (ℕ × SetID) :=
  conflicts.foldl
    (fun m conflict =>
      ((alookup tp.transactionSets conflict).getD []).foldl
        (fun m' t => ains t.id conflict m') m)
    []

/-- Total declared miner fees of a set. -/
def setFees (ts : List Tx) : ℤ :=
  (ts.map (fun t => t.minerFees.sum)).sum

/-! ## Fee policy

The constants below live in a file of the repository that is not part of
the provided sources; they are modelled from the spec. -/

/-- Modelled from the spec: `T_free`, the fixed occupancy threshold
(`TransactionPoolSizeForFee`) below which no fee is required. -/
def TransactionPoolSizeForFee : ℤ := 500000

/-- Modelled from the spec: `T_target`, the soft pool-size target
(`TransactionPoolSizeTarget`). -/
def TransactionPoolSizeTarget : ℤ := 3000000

/-- Modelled from the spec: the exponent `k > 1`
(`TransactionPoolExponentiation`). -/
def TransactionPoolExponentiation : ℕ := 3

/-- `types.HastingsPerSiacoin.Div64(1000)`: the base fee per byte, in
hastings (one siacoin is 10^24 hastings; divide by 1000 to get SC/kb). -/
def baseFeePerByte : ℤ := 10 ^ 21

/-- Modelled from the spec: `requiredFeesToExtendTpoolAtSize` computes
`base_fee_per_byte × (size / T_target)^k` with `float64` arithmetic and
converts the result to an integer currency via `modules.FromFloat` and
`modules.Float64`, helpers that live outside the provided sources; the
computation is embedded exactly, as the floor of the rational value
`size^k * base / T_target^k`. -/
def requiredFeesToExtendTpoolAtSize (size : ℤ) : ℤ :=
  size ^ TransactionPoolExponentiation * baseFeePerByte /
    TransactionPoolSizeTarget ^ TransactionPoolExponentiation

/-- `requiredFeesToExtendTpool`: zero while the pool is nearly empty,
otherwise the size-based fee. -/
def requiredFeesToExtendTpool (tp : Pool) : ℤ :=
  if tp.transactionListSize < TransactionPoolSizeForFee then 0
  else requiredFeesToExtendTpoolAtSize tp.transactionListSize

/-! ## Composition check -/

/-- `checkTransactionSetComposition`: duplicate-hash check against the
registry, then the standardness/size check. -/
def checkTransactionSetComposition (env : Env) (tp : Pool) (ts : List Tx) : Except Err ℕ :=
  if (alookup tp.transactionSets ts).isSome then .error .duplicate
  else env.isStandard ts

/-! ## Install and evict -/

/-- The install step shared by both success paths: insert the set into the
registry, index `oids` to the new set id, store the diff, grow the size
accounting, and record the first-seen height of every transaction that has
none yet. On the conflict-free path `oids` is `relatedObjectIDs` of the
admitted set; on the conflict path it is `diffOids` of the validation
diff. -/
def installPool (ss : List Tx) (cc : Diff) (oids : List ℕ) (tp : Pool) : Pool :=
  { transactionSets := ains ss ss tp.transactionSets
    knownObjects := oids.foldl (fun m oid => ains oid ss m) tp.knownObjects
    transactionSetDiffs := ains ss cc tp.transactionSetDiffs
    transactionListSize := tp.transactionListSize + encLenSet ss
    transactionHeights :=
      ss.foldl
        (fun m t => if alookup m t.id = none then ains t.id tp.blockHeight m else m)
        tp.transactionHeights
    blockHeight := tp.blockHeight }

/-- The eviction loop of `handleConflicts`: for every conflicting set id,
subtract its encoded size and remove it from the registry and the diff
store (`knownObjects` entries are not touched, exactly as in the source). -/
def evictAll (ssl : List SetID) (tp : Pool) : Pool :=
  match ssl with
  | [] => tp
  | s :: rest =>
      evictAll rest
        { tp with
          transactionListSize :=
            tp.transactionListSize - encLenSet ((alookup tp.transactionSets s).getD [])
          transactionSets := aerase s tp.transactionSets
          transactionSetDiffs := aerase s tp.transactionSetDiffs }

/-! ## Conflict resolution and acceptance -/

/-- The merged superset of `handleConflicts`: the full transaction lists
of every set named in the conflict map's value set (each exactly once, in
first-appearance order), followed by the deduplicated candidate appended
last. -/
def mergeSuperset (tp : Pool) (cm : List (ℕ × SetID)) (ds : List Tx) : List Tx :=
  (dedupFirst (cm.map Prod.snd)).flatMap
    (fun s => (alookup tp.transactionSets s).getD []) ++ ds

/-- The non-recursive tail of `handleConflicts`: merge the conflicting
sets with the deduplicated candidate (candidate last), re-check
composition and fees on the superset, validate it, evict the conflicting
sets and install the superset. -/
def resolveMerge (env : Env) (ds : List Tx) (cm : List (ℕ × SetID)) (tp : Pool) :
    Except Err (List Tx) × Pool :=
  let ssl := dedupFirst (cm.map Prod.snd)
  let superset := mergeSuperset tp cm ds
  match checkTransactionSetComposition env tp superset with
  | .error e => (.error e, tp)
  | .ok setSize =>
    if requiredFeesToExtendTpool tp * (setSize : ℤ) > setFees superset then
      (.error .lowFees, tp)
    else
      match env.txnFn superset with
      | .error e =>
          (.error (.consensusConflict
            ("provided transaction set has prereqs, but is still invalid: " ++ e)), tp)
      | .ok cc =>
          (.ok superset, installPool superset cc (diffOids cc) (evictAll ssl tp))

/-- `handleConflicts`: prune candidate transactions already present in a
conflicting set; fail if nothing remains; if something was pruned,
recompute the conflicts of the remainder and recurse; otherwise merge.

The Go function recurses on a strictly shorter candidate; the embedding
carries that bound as explicit fuel so that the definition is structurally
recursive and computable by the kernel. The fuel never runs out when the
initial fuel is at least the candidate's length (`handleConflicts_fuel`);
the fuel-exhaustion branch coincides with the body's own result on the
only candidate a fuel of zero admits (the empty one). -/
def handleConflicts (env : Env) : ℕ → List Tx → List SetID → Pool →
    Except Err (List Tx) × Pool
  | 0, _, _, tp => (.error .duplicate, tp)
  | fuel + 1, ts, conflicts, tp =>
    let cm := buildConflictMap tp conflicts
    let ds := ts.filter (fun t => (alookup cm t.id).isNone)
    if ds.isEmpty then (.error .duplicate, tp)
    else if ds.length < ts.length then
      handleConflicts env fuel ds (findConflicts tp (relatedObjectIDs ds)) tp
    else resolveMerge env ds cm tp

/-- `acceptTransactionSet`: the full admission pipeline. -/
def acceptTransactionSet (env : Env) (ts : List Tx) (tp : Pool) :
    Except Err (List Tx) × Pool :=
  if ts.isEmpty then (.error .emptySet, tp)
  else
    let ts' := ts.filter (fun t => !env.confirmed t.id)
    if ts'.isEmpty then (.error .duplicate, tp)
    else
      match checkTransactionSetComposition env tp ts' with
      | .error e => (.error e, tp)
      | .ok setSize =>
        if requiredFeesToExtendTpool tp * (setSize : ℤ) > setFees ts' then
          (.error .lowFees, tp)
        else
          let oids := relatedObjectIDs ts'
          let conflicts := findConflicts tp oids
          if conflicts.isEmpty then
            match env.txnFn ts' with
            | .error e =>
                (.error (.consensusConflict
                  ("provided transaction set is invalid: " ++ e)), tp)
            | .ok cc => (.ok ts', installPool ts' cc oids tp)
          else handleConflicts env ts'.length ts' conflicts tp

/-! ## Basic lemmas about the association-list embedding -/

theorem alookup_eq_none {K V : Type} [DecidableEq K] {l : List (K × V)} {k : K} :
    alookup l k = none ↔ k ∉ akeys l := by
  induction l with
  | nil => simp [alookup, akeys]
  | cons p rest ih =>
    obtain ⟨k0, v0⟩ := p
    by_cases h : k = k0 <;> simp [alookup, akeys, h] at ih ⊢ <;> simp [ih, akeys]

theorem alookup_some_mem {K V : Type} [DecidableEq K] {l : List (K × V)} {k : K} {v : V}
    (h : alookup l k = some v) : (k, v) ∈ l := by
  induction l with
  | nil => simp [alookup] at h
  | cons p rest ih =>
    obtain ⟨k0, v0⟩ := p
    by_cases hk : k = k0
    · subst hk
      simp only [alookup, if_pos trivial, ite_true, Option.some.injEq, if_true] at h
      simp [← h]
    · simp only [alookup, if_neg hk] at h
      exact List.mem_cons_of_mem _ (ih h)

theorem alookup_isSome_iff {K V : Type} [DecidableEq K] {l : List (K × V)} {k : K} :
    (alookup l k).isSome ↔ k ∈ akeys l := by
  cases h : alookup l k with
  | none =>
    simp only [Option.isSome_none, Bool.false_eq_true, false_iff]
    exact alookup_eq_none.mp h
  | some v =>
    simp only [Option.isSome_some, true_iff]
    exact (List.mem_map).mpr ⟨(k, v), alookup_some_mem h, rfl⟩

theorem alookup_filter_ne {K V : Type} [DecidableEq K] {l : List (K × V)} {k k' : K}
    (h : k' ≠ k) :
    alookup (l.filter (fun p => p.1 ≠ k)) k' = alookup l k' := by
  induction l with
  | nil => rfl
  | cons p rest ih =>
    obtain ⟨k0, v0⟩ := p
    simp only [ne_eq, decide_not] at ih ⊢
    by_cases h0 : k0 = k
    · subst h0
      have hne : k' ≠ k0 := h
      simp [List.filter_cons, alookup, hne, ih]
    · by_cases hk : k' = k0
      · subst hk; simp [List.filter_cons, h0, alookup]
      · simp [List.filter_cons, h0, alookup, hk, ih]

theorem alookup_ains_self {K V : Type} [DecidableEq K] (l : List (K × V)) (k : K) (v : V) :
    alookup (ains k v l) k = some v := by
  simp [ains, alookup]

theorem alookup_ains_ne {K V : Type} [DecidableEq K] (l : List (K × V)) {k k' : K} (v : V)
    (h : k' ≠ k) : alookup (ains k v l) k' = alookup l k' := by
  simp only [ains, alookup, if_neg h]
  exact alookup_filter_ne h

theorem alookup_aerase_ne {K V : Type} [DecidableEq K] (l : List (K × V)) {k k' : K}
    (h : k' ≠ k) : alookup (aerase k l) k' = alookup l k' :=
  alookup_filter_ne h

theorem alookup_aerase_self {K V : Type} [DecidableEq K] (l : List (K × V)) (k : K) :
    alookup (aerase k l) k = none := by
  rw [alookup_eq_none]
  intro hmem
  simp only [aerase, akeys, List.mem_map] at hmem
  obtain ⟨p, hp, hk⟩ := hmem
  rw [List.mem_filter] at hp
  have := hp.2
  simp only [decide_not, ne_eq, Bool.not_eq_true', decide_eq_false_iff_not] at this
  exact this hk

theorem alookup_aerase_of_none {K V : Type} [DecidableEq K] {l : List (K × V)} {k' : K}
    (k : K) (h : alookup l k' = none) : alookup (aerase k l) k' = none := by
  by_cases hk : k' = k
  · subst hk; exact alookup_aerase_self l k'
  · rw [alookup_aerase_ne l hk]; exact h

theorem mem_dedupFirstGo {α : Type} [DecidableEq α] {l seen : List α} {a : α} :
    a ∈ dedupFirstGo seen l ↔ a ∈ l ∧ a ∉ seen := by
  induction l generalizing seen with
  | nil => simp [dedupFirstGo]
  | cons b rest ih =>
    rw [dedupFirstGo]
    by_cases hb : b ∈ seen
    · rw [if_pos hb, ih]
      constructor
      · exact fun ⟨h1, h2⟩ => ⟨List.mem_cons_of_mem _ h1, h2⟩
      · rintro ⟨h1, h2⟩
        rcases List.mem_cons.mp h1 with hab | h1
        · exact absurd (hab ▸ hb) h2
        · exact ⟨h1, h2⟩
    · rw [if_neg hb]
      by_cases hab : a = b
      · subst hab; simp [hb]
      · simp [hab, ih]

theorem mem_dedupFirst {α : Type} [DecidableEq α] {l : List α} {a : α} :
    a ∈ dedupFirst l ↔ a ∈ l := by
  rw [dedupFirst, mem_dedupFirstGo]
  simp

theorem nodup_dedupFirstGo {α : Type} [DecidableEq α] (l seen : List α) :
    (dedupFirstGo seen l).Nodup := by
  induction l generalizing seen with
  | nil => simp [dedupFirstGo]
  | cons b rest ih =>
    rw [dedupFirstGo]
    by_cases hb : b ∈ seen
    · rw [if_pos hb]; exact ih seen
    · rw [if_neg hb]
      refine List.nodup_cons.mpr ⟨?_, ih (b :: seen)⟩
      rw [mem_dedupFirstGo]
      rintro ⟨_, h2⟩
      exact h2 (List.mem_cons_self _ _)

theorem nodup_dedupFirst {α : Type} [DecidableEq α] (l : List α) :
    (dedupFirst l).Nodup :=
  nodup_dedupFirstGo l []

theorem filter_eq_self_of_none {K V : Type} [DecidableEq K] {l : List (K × V)} {k : K}
    (h : alookup l k = none) : l.filter (fun p => p.1 ≠ k) = l := by
  rw [alookup_eq_none] at h
  apply List.filter_eq_self.mpr
  intro p hp
  simp only [decide_not, ne_eq, Bool.not_eq_eq_eq_not, Bool.not_true,
    decide_eq_false_iff_not]
  intro hk
  exact h (by simpa [akeys, hk] using List.mem_map_of_mem Prod.fst hp)

/-! ## Error returns never mutate the pool -/

theorem resolveMerge_error_state (env : Env) (ds : List Tx) (cm : List (ℕ × SetID))
    (tp : Pool) (e : Err) (h : (resolveMerge env ds cm tp).1 = .error e) :
    (resolveMerge env ds cm tp).2 = tp := by
  simp only [resolveMerge] at h ⊢
  cases hc : checkTransactionSetComposition env tp (mergeSuperset tp cm ds) with
  | error e' => simp [hc] at h ⊢
  | ok s =>
    simp only [hc] at h ⊢
    by_cases hf : requiredFeesToExtendTpool tp * (s : ℤ) >
        setFees (mergeSuperset tp cm ds)
    · simp [hf] at h ⊢
    · simp only [if_neg hf] at h ⊢
      cases ht : env.txnFn (mergeSuperset tp cm ds) with
      | error e2 => simp [ht] at h ⊢
      | ok cc => simp [ht] at h

theorem handleConflicts_error_state (env : Env) :
    ∀ (fuel : ℕ) (ts : List Tx) (conflicts : List SetID) (tp : Pool) (e : Err),
      (handleConflicts env fuel ts conflicts tp).1 = .error e →
      (handleConflicts env fuel ts conflicts tp).2 = tp := by
  intro fuel
  induction fuel with
  | zero =>
    intro ts conflicts tp e h
    rfl
  | succ n ih =>
    intro ts conflicts tp e h
    rw [handleConflicts] at h ⊢
    by_cases h1 : (ts.filter
        (fun t => (alookup (buildConflictMap tp conflicts) t.id).isNone)).isEmpty
    · simp [h1] at h ⊢
    · simp only [h1, Bool.false_eq_true, if_false] at h ⊢
      by_cases h2 : (ts.filter
          (fun t => (alookup (buildConflictMap tp conflicts) t.id).isNone)).length <
          ts.length
      · simp only [if_pos h2] at h ⊢
        exact ih _ _ _ _ h
      · simp only [if_neg h2] at h ⊢
        exact resolveMerge_error_state _ _ _ _ _ h

/-- Any error return of the acceptance pipeline leaves the pool
untouched. -/
theorem accept_error_state (env : Env) (ts : List Tx) (tp : Pool) (e : Err)
    (h : (acceptTransactionSet env ts tp).1 = .error e) :
    (acceptTransactionSet env ts tp).2 = tp := by
  simp only [acceptTransactionSet] at h ⊢
  by_cases h0 : ts.isEmpty
  · simp [h0]
  · simp only [h0, Bool.false_eq_true, if_false] at h ⊢
    by_cases h1 : (ts.filter (fun t => !env.confirmed t.id)).isEmpty
    · simp [h1]
    · simp only [h1, Bool.false_eq_true, if_false] at h ⊢
      cases hc : checkTransactionSetComposition env tp
          (ts.filter (fun t => !env.confirmed t.id)) with
      | error e' => simp [hc]
      | ok s =>
        simp only [hc] at h ⊢
        by_cases hf : requiredFeesToExtendTpool tp * (s : ℤ) >
            setFees (ts.filter (fun t => !env.confirmed t.id))
        · simp [hf]
        · simp only [if_neg hf] at h ⊢
          by_cases hcf : (findConflicts tp
              (relatedObjectIDs (ts.filter (fun t => !env.confirmed t.id)))).isEmpty
          · simp only [hcf, if_true] at h ⊢
            cases ht : env.txnFn (ts.filter (fun t => !env.confirmed t.id)) with
            | error e2 => simp [ht]
            | ok cc => simp [ht] at h
          · simp only [hcf, Bool.false_eq_true, if_false] at h ⊢
            exact handleConflicts_error_state env _ _ _ _ _ h

/-- C1: whenever `acceptTransactionSet` (including its delegation to
`handleConflicts`) returns an error, the pool state — transaction sets,
known objects, set diffs, transaction heights and the size accounting —
is exactly the state that held before the call; no partial mutation is
observable on an error return. -/
theorem C1_accept_error_preserves_pool (env : Env) (ts : List Tx) (tp : Pool) (e : Err)
    (h : (acceptTransactionSet env ts tp).1 = .error e) :
    (acceptTransactionSet env ts tp).2 = tp :=
  accept_error_state env ts tp e h

/-- A trivial environment used by concrete witnesses. -/
def envTrivial : Env :=
  { isStandard := fun _ => .ok 0
    confirmed := fun _ => false
    txnFn := fun _ => .ok ⟨[], [], []⟩ }

/-- Witness for C1: the empty candidate set errors out and the pool is
returned unchanged. -/
theorem C1_witness :
    (acceptTransactionSet envTrivial [] (emptyPool 0)).1 = .error .emptySet ∧
    (acceptTransactionSet envTrivial [] (emptyPool 0)).2 = emptyPool 0 :=
  ⟨rfl, C1_accept_error_preserves_pool envTrivial [] (emptyPool 0) .emptySet rfl⟩

/-! ## The size invariant -/

/-- Sum of the encoded sizes of all registered sets. -/
def regSum (reg : List (SetID × List Tx)) : ℤ :=
  (reg.map (fun p => encLenSet p.2)).sum

/-- Pool states reachable from an empty pool by successful submissions
(failed submissions leave the state untouched, see `C1`). -/
inductive Reachable : Pool → Prop where
  | base (bh : ℕ) : Reachable (emptyPool bh)
  | step (env : Env) (ts ss : List Tx) (tp tp' : Pool) :
      Reachable tp → acceptTransactionSet env ts tp = (.ok ss, tp') → Reachable tp'

theorem regSum_ains_fresh (reg : List (SetID × List Tx)) (k v : List Tx)
    (h : alookup reg k = none) : regSum (ains k v reg) = encLenSet v + regSum reg := by
  rw [show ains k v reg = (k, v) :: reg.filter (fun p => p.1 ≠ k) from rfl,
    filter_eq_self_of_none h]
  simp [regSum]

theorem regSum_aerase (reg : List (SetID × List Tx)) (k : SetID) (l : List Tx)
    (hk : alookup reg k = some l) (hnd : (akeys reg).Nodup) :
    regSum (aerase k reg) = regSum reg - encLenSet l := by
  induction reg with
  | nil => simp [alookup] at hk
  | cons p rest ih =>
    obtain ⟨k0, v0⟩ := p
    simp only [akeys, List.map_cons, List.nodup_cons] at hnd
    by_cases h0 : k = k0
    · subst h0
      simp only [alookup, if_pos trivial, ite_true, Option.some.injEq, if_true] at hk
      have hnone : alookup rest k = none := alookup_eq_none.mpr hnd.1
      show regSum (((k, v0) :: rest).filter (fun p => p.1 ≠ k)) = _
      rw [List.filter_cons, if_neg (by simp), filter_eq_self_of_none hnone, ← hk]
      simp only [regSum, List.map_cons, List.sum_cons]
      omega
    · simp only [alookup, if_neg h0] at hk
      have hrec := ih hk hnd.2
      have hne : k0 ≠ k := fun h => h0 h.symm
      show regSum (((k0, v0) :: rest).filter (fun p => p.1 ≠ k)) = _
      rw [List.filter_cons, if_pos (by simp [hne])]
      show regSum ((k0, v0) :: aerase k rest) = _
      simp only [regSum, List.map_cons, List.sum_cons] at hrec ⊢
      omega

theorem akeys_filter_sublist {K V : Type} (l : List (K × V)) (p : K × V → Bool) :
    (akeys (l.filter p)).Sublist (akeys l) :=
  List.Sublist.map Prod.fst (List.filter_sublist l)

theorem nodup_akeys_ains {K V : Type} [DecidableEq K] (l : List (K × V)) (k : K) (v : V)
    (h : (akeys l).Nodup) : (akeys (ains k v l)).Nodup := by
  simp only [ains, akeys, List.map_cons, List.nodup_cons]
  constructor
  · intro hmem
    simp only [List.mem_map] at hmem
    obtain ⟨p, hp, hk⟩ := hmem
    rw [List.mem_filter] at hp
    have := hp.2
    simp only [decide_not, ne_eq, Bool.not_eq_true', decide_eq_false_iff_not] at this
    exact this hk
  · exact (akeys_filter_sublist l _).nodup h

theorem nodup_akeys_aerase {K V : Type} [DecidableEq K] (l : List (K × V)) (k : K)
    (h : (akeys l).Nodup) : (akeys (aerase k l)).Nodup :=
  (akeys_filter_sublist l _).nodup h

/-- The `evictAll` loop only touches the registry, the diffs and the size
accounting. -/
theorem evictAll_components (ssl : List SetID) (tp : Pool) :
    (evictAll ssl tp).knownObjects = tp.knownObjects ∧
    (evictAll ssl tp).transactionHeights = tp.transactionHeights ∧
    (evictAll ssl tp).blockHeight = tp.blockHeight := by
  induction ssl generalizing tp with
  | nil => exact ⟨rfl, rfl, rfl⟩
  | cons s rest ih => simpa [evictAll] using ih _

theorem evictAll_lookup_none (ssl : List SetID) (tp : Pool) (k : SetID)
    (h : alookup tp.transactionSets k = none) :
    alookup (evictAll ssl tp).transactionSets k = none := by
  induction ssl generalizing tp with
  | nil => exact h
  | cons s rest ih =>
    simp only [evictAll]
    exact ih _ (alookup_aerase_of_none s h)

theorem evictAll_inv (ssl : List SetID) (tp : Pool) (hnd : ssl.Nodup)
    (hpres : ∀ s ∈ ssl, ∃ l, alookup tp.transactionSets s = some l)
    (hkeys : (akeys tp.transactionSets).Nodup)
    (hinv : tp.transactionListSize = regSum tp.transactionSets) :
    (evictAll ssl tp).transactionListSize = regSum (evictAll ssl tp).transactionSets ∧
    (akeys (evictAll ssl tp).transactionSets).Nodup := by
  induction ssl generalizing tp with
  | nil => exact ⟨hinv, hkeys⟩
  | cons s rest ih =>
    obtain ⟨l, hl⟩ := hpres s (List.mem_cons_self _ _)
    simp only [evictAll]
    apply ih
    · exact (List.nodup_cons.mp hnd).2
    · intro s' hs'
      have hne : s' ≠ s := fun h => (List.nodup_cons.mp hnd).1 (h ▸ hs')
      obtain ⟨l', hl'⟩ := hpres s' (List.mem_cons_of_mem _ hs')
      exact ⟨l', by rwa [alookup_aerase_ne _ hne]⟩
    · exact nodup_akeys_aerase _ _ hkeys
    · simp only [hl, Option.getD_some]
      rw [regSum_aerase _ _ _ hl hkeys, hinv]

theorem installPool_inv (ss : List Tx) (cc : Diff) (oids : List ℕ) (tp : Pool)
    (hfresh : alookup tp.transactionSets ss = none)
    (hkeys : (akeys tp.transactionSets).Nodup)
    (hinv : tp.transactionListSize = regSum tp.transactionSets) :
    (installPool ss cc oids tp).transactionListSize =
      regSum (installPool ss cc oids tp).transactionSets ∧
    (akeys (installPool ss cc oids tp).transactionSets).Nodup := by
  constructor
  · simp only [installPool, regSum_ains_fresh _ _ _ hfresh, hinv]
    ring
  · exact nodup_akeys_ains _ _ _ hkeys

/-- Every entry of the conflict map points at a set that is present in the
registry and contains a transaction with the entry's id. -/
theorem mem_foldl_ains_inner (l0 : List Tx) (c : SetID) (m : List (ℕ × SetID))
    (p : ℕ × SetID) (h : p ∈ l0.foldl (fun m' t => ains t.id c m') m) :
    p ∈ m ∨ (p.2 = c ∧ p.1 ∈ l0.map Tx.id) := by
  induction l0 generalizing m with
  | nil => exact Or.inl h
  | cons t rest ih =>
    simp only [List.foldl_cons] at h
    rcases ih _ h with hm | hc
    · simp only [ains, List.mem_cons] at hm
      rcases hm with he | hf
      · right
        rw [he]
        simp
      · exact Or.inl (List.mem_of_mem_filter hf)
    · right
      exact ⟨hc.1, List.mem_cons_of_mem _ hc.2⟩

theorem mem_buildConflictMap (tp : Pool) (conflicts : List SetID) (p : ℕ × SetID)
    (h : p ∈ buildConflictMap tp conflicts) :
    ∃ l, alookup tp.transactionSets p.2 = some l ∧ p.1 ∈ l.map Tx.id := by
  suffices H : ∀ (cs : List SetID) (m : List (ℕ × SetID)),
      p ∈ cs.foldl (fun m conflict =>
        ((alookup tp.transactionSets conflict).getD []).foldl
          (fun m' t => ains t.id conflict m') m) m →
      p ∈ m ∨ ∃ l, alookup tp.transactionSets p.2 = some l ∧ p.1 ∈ l.map Tx.id by
    rcases H conflicts [] h with hm | hg
    · simp at hm
    · exact hg
  intro cs
  induction cs with
  | nil => intro m hm; exact Or.inl hm
  | cons c rest ih =>
    intro m hm
    simp only [List.foldl_cons] at hm
    rcases ih _ hm with hin | hg
    · rcases mem_foldl_ains_inner _ _ _ _ hin with hm0 | ⟨hc, hid⟩
      · exact Or.inl hm0
      · right
        cases hl : alookup tp.transactionSets c with
        | none => rw [hl] at hid; simp at hid
        | some l =>
          rw [hl] at hid
          exact ⟨l, by rw [hc, hl], by simpa using hid⟩
    · exact Or.inr hg

theorem handleConflicts_inv (env : Env) :
    ∀ (fuel : ℕ) (ts : List Tx) (conflicts : List SetID) (tp : Pool) (ss : List Tx)
      (tp' : Pool),
      handleConflicts env fuel ts conflicts tp = (.ok ss, tp') →
      tp.transactionListSize = regSum tp.transactionSets →
      (akeys tp.transactionSets).Nodup →
      tp'.transactionListSize = regSum tp'.transactionSets ∧
      (akeys tp'.transactionSets).Nodup := by
  intro fuel
  induction fuel with
  | zero =>
    intro ts conflicts tp ss tp' h _ _
    rw [handleConflicts] at h
    simp at h
  | succ n ih =>
    intro ts conflicts tp ss tp' h hinv hkeys
    rw [handleConflicts] at h
    by_cases h1 : (ts.filter
        (fun t => (alookup (buildConflictMap tp conflicts) t.id).isNone)).isEmpty
    · simp [h1] at h
    · simp only [h1, Bool.false_eq_true, if_false] at h
      by_cases h2 : (ts.filter
          (fun t => (alookup (buildConflictMap tp conflicts) t.id).isNone)).length <
          ts.length
      · simp only [if_pos h2] at h
        exact ih _ _ _ _ _ h hinv hkeys
      · simp only [if_neg h2] at h
        -- the merge step
        simp only [resolveMerge] at h
        cases hc : checkTransactionSetComposition env tp
            (mergeSuperset tp (buildConflictMap tp conflicts)
              (ts.filter
                (fun t => (alookup (buildConflictMap tp conflicts) t.id).isNone))) with
        | error e => rw [hc] at h; simp at h
        | ok s =>
          rw [hc] at h
          by_cases hf : requiredFeesToExtendTpool tp * (s : ℤ) >
              setFees (mergeSuperset tp (buildConflictMap tp conflicts)
                (ts.filter
                  (fun t => (alookup (buildConflictMap tp conflicts) t.id).isNone)))
          · simp [hf] at h
          · simp only [if_neg hf] at h
            cases ht : env.txnFn
                (mergeSuperset tp (buildConflictMap tp conflicts)
                  (ts.filter
                    (fun t => (alookup (buildConflictMap tp conflicts) t.id).isNone))) with
            | error e => rw [ht] at h; simp at h
            | ok cc =>
              rw [ht] at h
              simp only [Prod.mk.injEq, Except.ok.injEq] at h
              obtain ⟨hss, htp'⟩ := h
              subst htp'
              -- freshness of the new set id
              have hfresh : alookup tp.transactionSets
                  (mergeSuperset tp (buildConflictMap tp conflicts)
                    (ts.filter
                      (fun t => (alookup (buildConflictMap tp conflicts) t.id).isNone))) =
                  none := by
                simp only [checkTransactionSetComposition] at hc
                by_cases hs : (alookup tp.transactionSets
                    (mergeSuperset tp (buildConflictMap tp conflicts)
                      (ts.filter
                        (fun t =>
                          (alookup (buildConflictMap tp conflicts) t.id).isNone)))).isSome
                · rw [if_pos hs] at hc; simp at hc
                · exact Option.not_isSome_iff_eq_none.mp hs
              have hev := evictAll_inv
                (dedupFirst ((buildConflictMap tp conflicts).map Prod.snd)) tp
                (nodup_dedupFirst _)
                (by
                  intro s' hs'
                  rw [mem_dedupFirst] at hs'
                  simp only [List.mem_map] at hs'
                  obtain ⟨p, hp, hps⟩ := hs'
                  obtain ⟨l, hl, _⟩ := mem_buildConflictMap tp conflicts p hp
                  exact ⟨l, hps ▸ hl⟩)
                hkeys hinv
              exact installPool_inv _ _ _ _
                (evictAll_lookup_none _ _ _ hfresh) hev.2 hev.1

/-- C2: after every sequence of successful submissions starting from an
empty pool, `transactionListSize` equals the sum of the encoded sizes of
all sets currently present in `transactionSets`; conflict resolution
decrements it by each evicted set's encoded size and increments it by the
installed superset's encoded size (`evictAll_inv` / `installPool_inv`). -/
theorem C2_size_invariant (tp : Pool) (h : Reachable tp) :
    tp.transactionListSize = regSum tp.transactionSets := by
  suffices H : tp.transactionListSize = regSum tp.transactionSets ∧
      (akeys tp.transactionSets).Nodup from H.1
  induction h with
  | base bh => simp [emptyPool, regSum, akeys]
  | step env ts ss tp0 tp' _ hacc ih =>
    obtain ⟨hinv, hkeys⟩ := ih
    simp only [acceptTransactionSet] at hacc
    by_cases h0 : ts.isEmpty
    · simp [h0] at hacc
    · simp only [h0, Bool.false_eq_true, if_false] at hacc
      by_cases h1 : (ts.filter (fun t => !env.confirmed t.id)).isEmpty
      · simp [h1] at hacc
      · simp only [h1, Bool.false_eq_true, if_false] at hacc
        cases hc : checkTransactionSetComposition env tp0
            (ts.filter (fun t => !env.confirmed t.id)) with
        | error e => rw [hc] at hacc; simp at hacc
        | ok s =>
          rw [hc] at hacc
          by_cases hf : requiredFeesToExtendTpool tp0 * (s : ℤ) >
              setFees (ts.filter (fun t => !env.confirmed t.id))
          · simp [hf] at hacc
          · simp only [if_neg hf] at hacc
            by_cases hcf : (findConflicts tp0
                (relatedObjectIDs (ts.filter (fun t => !env.confirmed t.id)))).isEmpty
            · simp only [hcf, if_true] at hacc
              cases ht : env.txnFn (ts.filter (fun t => !env.confirmed t.id)) with
              | error e => rw [ht] at hacc; simp at hacc
              | ok cc =>
                rw [ht] at hacc
                simp only [Prod.mk.injEq, Except.ok.injEq] at hacc
                obtain ⟨_, htp'⟩ := hacc
                subst htp'
                have hfresh : alookup tp0.transactionSets
                    (ts.filter (fun t => !env.confirmed t.id)) = none := by
                  simp only [checkTransactionSetComposition] at hc
                  by_cases hs : (alookup tp0.transactionSets
                      (ts.filter (fun t => !env.confirmed t.id))).isSome
                  · rw [if_pos hs] at hc; simp at hc
                  · exact Option.not_isSome_iff_eq_none.mp hs
                exact installPool_inv _ _ _ _ hfresh hkeys hinv
            · simp only [hcf, Bool.false_eq_true, if_false] at hacc
              exact handleConflicts_inv env _ _ _ _ _ _ hacc hinv hkeys

/-- A sample transaction used by concrete witnesses. -/
def tx0 : Tx :=
  { id := 1, minerFees := [], scInputParents := [], scOutputIDs := [7], fcIDs := []
    fcRevisionParents := [], spParents := [], sfInputParents := [], sfOutputIDs := []
    encLen := 100 }

/-- Witness for C2: the invariant holds after a concrete successful
submission into the empty pool. -/
theorem C2_witness :
    (acceptTransactionSet envTrivial [tx0] (emptyPool 0)).2.transactionListSize =
      regSum (acceptTransactionSet envTrivial [tx0] (emptyPool 0)).2.transactionSets :=
  C2_size_invariant _
    (Reachable.step envTrivial [tx0] [tx0] (emptyPool 0)
      (acceptTransactionSet envTrivial [tx0] (emptyPool 0)).2 (Reachable.base 0) (by rfl))

/-! ## Fuel adequacy for the conflict resolver -/

theorem handleConflicts_nil (env : Env) (fuel : ℕ) (conflicts : List SetID) (tp : Pool) :
    handleConflicts env fuel [] conflicts tp = (.error .duplicate, tp) := by
  cases fuel with
  | zero => rfl
  | succ n => rw [handleConflicts]; simp

/-- The fuel argument of `handleConflicts` is an artifact of the
embedding: any two sufficient fuels give the same result. -/
theorem handleConflicts_fuel (env : Env) :
    ∀ (f f' : ℕ) (ts : List Tx) (conflicts : List SetID) (tp : Pool),
      ts.length ≤ f → ts.length ≤ f' →
      handleConflicts env f ts conflicts tp = handleConflicts env f' ts conflicts tp := by
  intro f
  induction f with
  | zero =>
    intro f' ts conflicts tp hf hf'
    rw [List.length_eq_zero.mp (Nat.le_zero.mp hf)]
    rw [handleConflicts_nil, handleConflicts_nil]
  | succ n ih =>
    intro f' ts conflicts tp hf hf'
    cases f' with
    | zero =>
      rw [List.length_eq_zero.mp (Nat.le_zero.mp hf')]
      rw [handleConflicts_nil, handleConflicts_nil]
    | succ n' =>
      rw [handleConflicts, handleConflicts]
      by_cases h1 : (ts.filter
          (fun t => (alookup (buildConflictMap tp conflicts) t.id).isNone)).isEmpty
      · simp [h1]
      · simp only [h1, Bool.false_eq_true, if_false]
        by_cases h2 : (ts.filter
            (fun t => (alookup (buildConflictMap tp conflicts) t.id).isNone)).length <
            ts.length
        · simp only [if_pos h2]
          exact ih n' _ _ _
            (Nat.le_of_lt_succ (Nat.lt_of_lt_of_le h2 hf))
            (Nat.le_of_lt_succ (Nat.lt_of_lt_of_le h2 hf'))
        · simp [h2]

/-! ## The fee curve -/

/-- C9: the required fee per byte is exactly zero whenever the pool's
byte size is below the fixed threshold `TransactionPoolSizeForFee`, and at
or above that threshold it equals
`size^k * base_fee_per_byte / T_target^k` (the floor of
`base_fee_per_byte * (size / T_target)^k`, characterised by the two
bounds below) for the fixed constants `TransactionPoolSizeTarget` and
exponent `TransactionPoolExponentiation = k > 1`; the curve is monotone in
the pool size and imposes no absolute size cap. -/
theorem C9_fee_curve :
    (∀ tp : Pool, tp.transactionListSize < TransactionPoolSizeForFee →
      requiredFeesToExtendTpool tp = 0) ∧
    (∀ tp : Pool, TransactionPoolSizeForFee ≤ tp.transactionListSize →
      requiredFeesToExtendTpool tp =
        requiredFeesToExtendTpoolAtSize tp.transactionListSize) ∧
    (∀ size : ℤ,
      TransactionPoolSizeTarget ^ TransactionPoolExponentiation *
          requiredFeesToExtendTpoolAtSize size ≤
        size ^ TransactionPoolExponentiation * baseFeePerByte ∧
      size ^ TransactionPoolExponentiation * baseFeePerByte <
        TransactionPoolSizeTarget ^ TransactionPoolExponentiation *
          (requiredFeesToExtendTpoolAtSize size + 1)) ∧
    1 < TransactionPoolExponentiation ∧
    (∀ s1 s2 : ℤ, 0 ≤ s1 → s1 ≤ s2 →
      requiredFeesToExtendTpoolAtSize s1 ≤ requiredFeesToExtendTpoolAtSize s2) := by
  have hTpos : (0 : ℤ) <
      TransactionPoolSizeTarget ^ TransactionPoolExponentiation := by
    rw [TransactionPoolSizeTarget, TransactionPoolExponentiation]
    norm_num
  refine ⟨?_, ?_, ?_, ?_, ?_⟩
  · intro tp h
    rw [requiredFeesToExtendTpool, if_pos h]
  · intro tp h
    rw [requiredFeesToExtendTpool, if_neg (not_lt.mpr h)]
  · intro size
    constructor
    · rw [requiredFeesToExtendTpoolAtSize]
      have := Int.ediv_add_emod (size ^ TransactionPoolExponentiation * baseFeePerByte)
        (TransactionPoolSizeTarget ^ TransactionPoolExponentiation)
      have hnn := Int.emod_nonneg
        (size ^ TransactionPoolExponentiation * baseFeePerByte)
        (ne_of_gt hTpos)
      omega
    · rw [requiredFeesToExtendTpoolAtSize]
      have := Int.ediv_add_emod (size ^ TransactionPoolExponentiation * baseFeePerByte)
        (TransactionPoolSizeTarget ^ TransactionPoolExponentiation)
      have hlt := Int.emod_lt_of_pos
        (size ^ TransactionPoolExponentiation * baseFeePerByte) hTpos
      have hdistrib : TransactionPoolSizeTarget ^ TransactionPoolExponentiation *
          (size ^ TransactionPoolExponentiation * baseFeePerByte /
            TransactionPoolSizeTarget ^ TransactionPoolExponentiation + 1) =
          TransactionPoolSizeTarget ^ TransactionPoolExponentiation *
            (size ^ TransactionPoolExponentiation * baseFeePerByte /
              TransactionPoolSizeTarget ^ TransactionPoolExponentiation) +
          TransactionPoolSizeTarget ^ TransactionPoolExponentiation := by ring
      omega
  · rw [TransactionPoolExponentiation]
    norm_num
  · intro s1 s2 h0 h12
    rw [requiredFeesToExtendTpoolAtSize, requiredFeesToExtendTpoolAtSize]
    apply Int.ediv_le_ediv hTpos
    apply mul_le_mul_of_nonneg_right _ (by rw [baseFeePerByte]; positivity)
    exact pow_le_pow_left₀ h0 h12 _

/-- Witness for C9: the two branches evaluated at concrete pools, one
just below and one at the fee threshold. -/
theorem C9_witness :
    requiredFeesToExtendTpool
        { emptyPool 0 with transactionListSize := 499999 } = 0 ∧
    requiredFeesToExtendTpool
        { emptyPool 0 with transactionListSize := 600016 } =
      requiredFeesToExtendTpoolAtSize 600016 :=
  ⟨C9_fee_curve.1 _ (by decide), (C9_fee_curve.2.1 _ (by decide))⟩

/-! ## The bounded FIFO caches

`siacoinOutputCache`, `fileContractCache` and `blockCache` are identical
up to their key/value types and their fixed capacity; they are embedded
once, generically. -/

/-- `scoCacheSize`. -/
def scoCacheSize : ℕ := 200000

/-- `fcCacheSize`. -/
def fcCacheSize : ℕ := 100000

/-- `blockCacheSize`. -/
def blockCacheSize : ℕ := 32

/-- The common shape of `siacoinOutputCache`, `fileContractCache` and
`blockCache`: an index map from key to slot, a fixed-size slot array of
key/value pairs, and the eviction tip. -/
structure GCache (K V : Type) where
  index : List (K × ℕ)
  slots : List (K × V)
  tip : ℕ
  deriving DecidableEq, Repr

/-- `newSiacoinOutputCache` / `newFileContractCache` / `newBlockCache`:
an empty index and a slot array of `cap` zero-valued entries. -/
def newCache (K V : Type) [Inhabited K] [Inhabited V] (cap : ℕ) : GCache K V :=
  { index := [], slots := List.replicate cap (default, default), tip := 0 }

/-- `Lookup`: find the slot through the index. -/
def GCache.Lookup {K V : Type} [DecidableEq K] [Inhabited K] [Inhabited V]
    (c : GCache K V) (k : K) : Option V :=
  match alookup c.index k with
  | none => none
  | some i => some (c.slots.getD i (default, default)).2

/-- `Push`: a no-op if the key is already present; otherwise advance the
tip cyclically, drop the index entry of the key stored at the new tip,
overwrite that slot and index the new key. -/
def GCache.Push {K V : Type} [DecidableEq K] [Inhabited K] [Inhabited V]
    (cap : ℕ) (k : K) (v : V) (c : GCache K V) : GCache K V :=
  if (alookup c.index k).isSome then c
  else
    let tip1 := if c.tip + 1 ≥ cap then 0 else c.tip + 1
    let old := (c.slots.getD tip1 (default, default)).1
    { index := ains k tip1 (aerase old c.index)
      slots := c.slots.set tip1 (k, v)
      tip := tip1 }

/-- Cache states reachable from a fresh cache by pushes. -/
inductive CacheReachable {K V : Type} [DecidableEq K] [Inhabited K] [Inhabited V]
    (cap : ℕ) : GCache K V → Prop where
  | base : CacheReachable cap (newCache K V cap)
  | step (k : K) (v : V) (c : GCache K V) :
      CacheReachable cap c → CacheReachable cap (GCache.Push cap k v c)

/-- The structural invariant of a cache: distinct index keys, a slot
array of the fixed capacity, and every index entry pointing at a slot in
range that stores its key. -/
def cacheInv {K V : Type} [DecidableEq K] [Inhabited K] [Inhabited V]
    (cap : ℕ) (c : GCache K V) : Prop :=
  (akeys c.index).Nodup ∧ c.slots.length = cap ∧
    ∀ p ∈ c.index, p.2 < cap ∧ (c.slots.getD p.2 (default, default)).1 = p.1

theorem mem_ains_elim {K V : Type} [DecidableEq K] {l : List (K × V)} {k : K} {v : V}
    {p : K × V} (h : p ∈ ains k v l) : p = (k, v) ∨ (p ∈ l ∧ p.1 ≠ k) := by
  simp only [ains, List.mem_cons] at h
  rcases h with h | h
  · exact Or.inl h
  · right
    refine ⟨List.mem_of_mem_filter h, ?_⟩
    have := (List.mem_filter.mp h).2
    simpa using this

theorem cacheInv_push {K V : Type} [DecidableEq K] [Inhabited K] [Inhabited V]
    (cap : ℕ) (hcap : 0 < cap) (k : K) (v : V) (c : GCache K V)
    (h : cacheInv cap c) : cacheInv cap (GCache.Push cap k v c) := by
  obtain ⟨hkeys, hlen, hent⟩ := h
  rw [GCache.Push]
  by_cases hk : (alookup c.index k).isSome
  · rw [if_pos hk]; exact ⟨hkeys, hlen, hent⟩
  · rw [if_neg hk]
    have htip : (if c.tip + 1 ≥ cap then 0 else c.tip + 1) < cap := by
      by_cases hb : c.tip + 1 ≥ cap
      · rw [if_pos hb]; exact hcap
      · rw [if_neg hb]; omega
    refine ⟨nodup_akeys_ains _ _ _ (nodup_akeys_aerase _ _ hkeys), by simp [hlen], ?_⟩
    intro p hp
    rcases mem_ains_elim hp with hpe | ⟨hpm, hpk⟩
    · subst hpe
      refine ⟨htip, ?_⟩
      simp only [List.getD_eq_getElem?_getD,
        List.getElem?_set_self (by rw [hlen]; exact htip)]
      simp
    · have hpm' : p ∈ c.index := List.mem_of_mem_filter hpm
      have hold : p.1 ≠ (c.slots.getD (if c.tip + 1 ≥ cap then 0 else c.tip + 1)
          (default, default)).1 := by
        have := (List.mem_filter.mp hpm).2
        simpa using this
      obtain ⟨hlt, hslot⟩ := hent p hpm'
      have hne : p.2 ≠ (if c.tip + 1 ≥ cap then 0 else c.tip + 1) := by
        intro he
        exact hold (by rw [← hslot, he])
      refine ⟨hlt, ?_⟩
      simp only [List.getD_eq_getElem?_getD,
        List.getElem?_set_ne (fun hh => hne hh.symm)]
      simpa [List.getD_eq_getElem?_getD] using hslot

theorem cacheInv_reachable {K V : Type} [DecidableEq K] [Inhabited K] [Inhabited V]
    (cap : ℕ) (hcap : 0 < cap) (c : GCache K V) (h : CacheReachable cap c) :
    cacheInv cap c := by
  induction h with
  | base =>
    refine ⟨by simp [newCache, akeys], by simp [newCache], ?_⟩
    intro p hp
    simp [newCache] at hp
  | step k v c _ ih => exact cacheInv_push cap hcap k v c ih

theorem nodup_snd_of_inv {K : Type} (l : List (K × ℕ))
    (hkeys : (l.map Prod.fst).Nodup)
    (hinj : ∀ p ∈ l, ∀ q ∈ l, p.2 = q.2 → p.1 = q.1) :
    (l.map Prod.snd).Nodup := by
  induction l with
  | nil => simp
  | cons p rest ih =>
    simp only [List.map_cons, List.nodup_cons] at hkeys ⊢
    constructor
    · intro hmem
      simp only [List.mem_map] at hmem
      obtain ⟨q, hq, hq2⟩ := hmem
      have := hinj q (List.mem_cons_of_mem _ hq) p (List.mem_cons_self _ _) hq2
      exact hkeys.1 (this ▸ List.mem_map_of_mem Prod.fst hq)
    · exact ih hkeys.2 (fun a ha b hb => hinj a (List.mem_cons_of_mem _ ha)
        b (List.mem_cons_of_mem _ hb))

theorem index_length_le_of_inv {K V : Type} [DecidableEq K] [Inhabited K] [Inhabited V]
    (cap : ℕ) (c : GCache K V) (h : cacheInv cap c) : c.index.length ≤ cap := by
  obtain ⟨hkeys, _, hent⟩ := h
  have hsnd : (c.index.map Prod.snd).Nodup :=
    nodup_snd_of_inv c.index hkeys
      (fun p hp q hq hpq => by
        have h1 := (hent p hp).2
        have h2 := (hent q hq).2
        rw [← h1, ← h2, hpq])
  have hsub : c.index.map Prod.snd ⊆ List.range cap := by
    intro i hi
    simp only [List.mem_map] at hi
    obtain ⟨p, hp, hpi⟩ := hi
    rw [List.mem_range, ← hpi]
    exact (hent p hp).1
  calc c.index.length = (c.index.map Prod.snd).length := (List.length_map _ _).symm
    _ ≤ (List.range cap).length := (List.subperm_of_subset hsnd hsub).length_le
    _ = cap := List.length_range cap

/-- C10: pushing a key that is already present is a complete no-op (so a
second push of the same key with a different value neither replaces the
stored value nor advances the eviction tip, and `Lookup` keeps returning
the original value), and after any sequence of pushes the index holds at
most the cache's fixed capacity of entries — in particular at most
`scoCacheSize`, `fcCacheSize` and `blockCacheSize` entries for the three
caches of the source. -/
theorem C10_fifo_cache :
    (∀ (K V : Type) [DecidableEq K] [Inhabited K] [Inhabited V]
      (cap : ℕ) (k : K) (v : V) (c : GCache K V),
      (alookup c.index k).isSome → GCache.Push cap k v c = c) ∧
    (∀ (K V : Type) [DecidableEq K] [Inhabited K] [Inhabited V]
      (cap : ℕ) (k : K) (v v' : V) (c : GCache K V),
      GCache.Push cap k v' (GCache.Push cap k v c) = GCache.Push cap k v c) ∧
    (∀ (K V : Type) [DecidableEq K] [Inhabited K] [Inhabited V]
      (cap : ℕ) (k : K) (v : V) (c : GCache K V),
      0 < cap → c.slots.length = cap → alookup c.index k = none →
      (GCache.Push cap k v c).Lookup k = some v) ∧
    (∀ (K V : Type) [DecidableEq K] [Inhabited K] [Inhabited V]
      (cap : ℕ) (c : GCache K V),
      0 < cap → CacheReachable cap c → c.index.length ≤ cap) ∧
    (∀ c : GCache ℕ ℕ, CacheReachable scoCacheSize c →
      c.index.length ≤ scoCacheSize) ∧
    (∀ c : GCache ℕ ℕ, CacheReachable fcCacheSize c →
      c.index.length ≤ fcCacheSize) ∧
    (∀ c : GCache ℕ ℕ, CacheReachable blockCacheSize c →
      c.index.length ≤ blockCacheSize) := by
  have hnoop : ∀ (K V : Type) [DecidableEq K] [Inhabited K] [Inhabited V]
      (cap : ℕ) (k : K) (v : V) (c : GCache K V),
      (alookup c.index k).isSome → GCache.Push cap k v c = c := by
    intro K V _ _ _ cap k v c h
    rw [GCache.Push, if_pos h]
  have hbound : ∀ (K V : Type) [DecidableEq K] [Inhabited K] [Inhabited V]
      (cap : ℕ) (c : GCache K V),
      0 < cap → CacheReachable cap c → c.index.length ≤ cap := by
    intro K V _ _ _ cap c hcap h
    exact index_length_le_of_inv cap c (cacheInv_reachable cap hcap c h)
  refine ⟨hnoop, ?_, ?_, hbound, ?_, ?_, ?_⟩
  · intro K V _ _ _ cap k v v' c
    apply hnoop
    rw [GCache.Push]
    by_cases hk : (alookup c.index k).isSome
    · rw [if_pos hk]; exact hk
    · rw [if_neg hk]
      simp [alookup_ains_self]
  · intro K V _ _ _ cap k v c hcap hlen hnone
    rw [GCache.Push, if_neg (by simp [hnone])]
    have htip : (if c.tip + 1 ≥ cap then 0 else c.tip + 1) < cap := by
      by_cases hb : c.tip + 1 ≥ cap
      · rw [if_pos hb]; exact hcap
      · rw [if_neg hb]; omega
    rw [GCache.Lookup]
    simp only [alookup_ains_self]
    simp only [List.getD_eq_getElem?_getD,
      List.getElem?_set_self (by rw [hlen]; exact htip)]
    simp
  · exact fun c h => hbound ℕ ℕ scoCacheSize c (by rw [scoCacheSize]; norm_num) h
  · exact fun c h => hbound ℕ ℕ fcCacheSize c (by rw [fcCacheSize]; norm_num) h
  · exact fun c h => hbound ℕ ℕ blockCacheSize c (by rw [blockCacheSize]; norm_num) h

/-- Witness for C10: a concrete double push on a fresh block-sized cache
is a no-op, the lookup returns the originally pushed value, and a
concretely reached cache respects the capacity bound. -/
theorem C10_witness :
    GCache.Push blockCacheSize 5 (77 : ℕ)
        (GCache.Push blockCacheSize 5 42 (newCache ℕ ℕ blockCacheSize)) =
      GCache.Push blockCacheSize 5 42 (newCache ℕ ℕ blockCacheSize) ∧
    (GCache.Push blockCacheSize 5 (42 : ℕ) (newCache ℕ ℕ blockCacheSize)).Lookup 5 =
      some 42 ∧
    (GCache.Push blockCacheSize 5 (42 : ℕ) (newCache ℕ ℕ blockCacheSize)).index.length ≤
      blockCacheSize :=
  ⟨C10_fifo_cache.2.1 ℕ ℕ blockCacheSize 5 42 77 (newCache ℕ ℕ blockCacheSize),
   C10_fifo_cache.2.2.1 ℕ ℕ blockCacheSize 5 42 (newCache ℕ ℕ blockCacheSize)
     (by decide) (by decide) (by decide),
   C10_fifo_cache.2.2.2.1 ℕ ℕ blockCacheSize _ (by decide)
     (CacheReachable.step 5 42 _ CacheReachable.base)⟩

/-! ## Confirmed-transaction filtering -/

/-- A compact transaction constructor for concrete witnesses. -/
def mkTx (i : ℕ) (ins outs : List ℕ) (fee : ℤ) (enc : ℕ) : Tx :=
  { id := i, minerFees := [fee], scInputParents := ins, scOutputIDs := outs
    fcIDs := [], fcRevisionParents := [], spParents := [], sfInputParents := []
    sfOutputIDs := [], encLen := enc }

/-- C6: for every non-empty candidate, the set that proceeds past the
confirmed-transaction filter contains exactly the transactions whose ids
the `confirmed` lookup rejects, in their original relative order
(a sublist of the candidate); if every transaction is confirmed the call
fails with `duplicate` and leaves the pool unchanged; and on the
conflict-free success path exactly that filtered set is returned. -/
theorem C6_confirmed_filtering (env : Env) (ts : List Tx) (tp : Pool) (h : ts ≠ []) :
    (∀ t : Tx, t ∈ ts.filter (fun t => !env.confirmed t.id) ↔
      t ∈ ts ∧ env.confirmed t.id = false) ∧
    (ts.filter (fun t => !env.confirmed t.id)).Sublist ts ∧
    (ts.filter (fun t => !env.confirmed t.id) = [] →
      acceptTransactionSet env ts tp = (.error .duplicate, tp)) ∧
    (∀ (ss : List Tx) (tp' : Pool), acceptTransactionSet env ts tp = (.ok ss, tp') →
      (findConflicts tp
        (relatedObjectIDs (ts.filter (fun t => !env.confirmed t.id)))).isEmpty = true →
      ss = ts.filter (fun t => !env.confirmed t.id)) := by
  have h0 : ts.isEmpty = false := by
    cases ts with
    | nil => exact absurd rfl h
    | cons a l => rfl
  refine ⟨?_, List.filter_sublist ts, ?_, ?_⟩
  · intro t
    rw [List.mem_filter]
    simp
  · intro hflt
    rw [acceptTransactionSet]
    simp only [h0, Bool.false_eq_true, if_false]
    rw [hflt]
    simp
  · intro ss tp' hacc hnc
    rw [acceptTransactionSet] at hacc
    simp only [h0, Bool.false_eq_true, if_false] at hacc
    by_cases h1 : (ts.filter (fun t => !env.confirmed t.id)).isEmpty
    · simp [h1] at hacc
    · simp only [h1, Bool.false_eq_true, if_false] at hacc
      cases hc : checkTransactionSetComposition env tp
          (ts.filter (fun t => !env.confirmed t.id)) with
      | error e => rw [hc] at hacc; simp at hacc
      | ok s =>
        rw [hc] at hacc
        by_cases hf : requiredFeesToExtendTpool tp * (s : ℤ) >
            setFees (ts.filter (fun t => !env.confirmed t.id))
        · simp [hf] at hacc
        · simp only [if_neg hf] at hacc
          rw [hnc] at hacc
          simp only [if_true] at hacc
          cases ht : env.txnFn (ts.filter (fun t => !env.confirmed t.id)) with
          | error e => rw [ht] at hacc; simp at hacc
          | ok cc =>
            rw [ht] at hacc
            simp only [Prod.mk.injEq, Except.ok.injEq] at hacc
            exact hacc.1.symm

/-- An environment in which exactly the transaction with id 1 counts as
confirmed on-chain. -/
def envC6 : Env :=
  { isStandard := fun _ => .ok 10
    confirmed := fun n => n == 1
    txnFn := fun _ => .ok ⟨[], [], []⟩ }

/-- Witness for C6: a two-transaction candidate with one confirmed
transaction admits exactly the unconfirmed one; an all-confirmed
candidate yields `duplicate`. -/
theorem C6_witness :
    ((mkTx 2 [] [20] 0 50) ∈ [mkTx 1 [] [10] 0 50, mkTx 2 [] [20] 0 50] ∧
      envC6.confirmed (mkTx 2 [] [20] 0 50).id = false) ∧
    ([mkTx 2 [] [20] 0 50] =
      [mkTx 1 [] [10] 0 50, mkTx 2 [] [20] 0 50].filter
        (fun t => !envC6.confirmed t.id)) ∧
    acceptTransactionSet envC6 [mkTx 1 [] [10] 0 50] (emptyPool 0) =
      (.error .duplicate, emptyPool 0) :=
  ⟨((C6_confirmed_filtering envC6 [mkTx 1 [] [10] 0 50, mkTx 2 [] [20] 0 50]
      (emptyPool 0) (by simp)).1 (mkTx 2 [] [20] 0 50)).mp (by decide),
   (C6_confirmed_filtering envC6 [mkTx 1 [] [10] 0 50, mkTx 2 [] [20] 0 50]
      (emptyPool 0) (by simp)).2.2.2 [mkTx 2 [] [20] 0 50]
      (acceptTransactionSet envC6 [mkTx 1 [] [10] 0 50, mkTx 2 [] [20] 0 50]
        (emptyPool 0)).2 (by rfl) (by rfl),
   (C6_confirmed_filtering envC6 [mkTx 1 [] [10] 0 50] (emptyPool 0)
      (by simp)).2.2.1 (by decide)⟩

/-! ## The fee gate -/

/-- C8: a set that passes composition checking is rejected with
`lowFees` exactly when its total declared miner fees are strictly below
the required fee per byte times the set size reported by the composition
check; fees exactly equal to the requirement are not rejected. The first
conjunct covers the gate of `acceptTransactionSet` (on the filtered
candidate, rejection before conflict detection; acceptance of the gate on
the conflict-free path never produces `lowFees`), the second the gate of
`resolveMerge` (on the merged superset). -/
theorem C8_fee_gate :
    (∀ (env : Env) (ts : List Tx) (tp : Pool) (setSize : ℕ),
      ts.isEmpty = false →
      (ts.filter (fun t => !env.confirmed t.id)).isEmpty = false →
      checkTransactionSetComposition env tp
        (ts.filter (fun t => !env.confirmed t.id)) = .ok setSize →
      ((setFees (ts.filter (fun t => !env.confirmed t.id)) <
          requiredFeesToExtendTpool tp * (setSize : ℤ) →
        acceptTransactionSet env ts tp = (.error .lowFees, tp)) ∧
       ((findConflicts tp
          (relatedObjectIDs (ts.filter (fun t => !env.confirmed t.id)))).isEmpty = true →
        ¬ setFees (ts.filter (fun t => !env.confirmed t.id)) <
            requiredFeesToExtendTpool tp * (setSize : ℤ) →
        (acceptTransactionSet env ts tp).1 ≠ .error .lowFees))) ∧
    (∀ (env : Env) (ds : List Tx) (cm : List (ℕ × SetID)) (tp : Pool) (setSize : ℕ),
      checkTransactionSetComposition env tp (mergeSuperset tp cm ds) = .ok setSize →
      (resolveMerge env ds cm tp = (.error .lowFees, tp) ↔
        setFees (mergeSuperset tp cm ds) <
          requiredFeesToExtendTpool tp * (setSize : ℤ))) := by
  constructor
  · intro env ts tp setSize h0 h1 hc
    constructor
    · intro hlow
      rw [acceptTransactionSet]
      simp only [h0, Bool.false_eq_true, if_false, h1, hc]
      rw [if_pos (by exact hlow)]
    · intro hnc hok
      rw [acceptTransactionSet]
      simp only [h0, Bool.false_eq_true, if_false, h1, hc]
      rw [if_neg (by exact fun hcon => hok hcon)]
      rw [hnc]
      simp only [if_true]
      cases ht : env.txnFn (ts.filter (fun t => !env.confirmed t.id)) with
      | error e => simp [ht]
      | ok cc => simp [ht]
  · intro env ds cm tp setSize hc
    rw [resolveMerge]
    simp only [hc]
    constructor
    · intro h
      by_cases hf : requiredFeesToExtendTpool tp * (setSize : ℤ) >
          setFees (mergeSuperset tp cm ds)
      · exact hf
      · exfalso
        rw [if_neg hf] at h
        cases ht : env.txnFn (mergeSuperset tp cm ds) with
        | error e => rw [ht] at h; simp at h
        | ok cc => rw [ht] at h; simp at h
    · intro hf
      rw [if_pos (by exact hf)]

/-- An environment whose standardness check reports a fixed set size. -/
def envC8 : Env :=
  { isStandard := fun _ => .ok 1000
    confirmed := fun _ => false
    txnFn := fun _ => .ok ⟨[], [], []⟩ }

/-- A pool at the fee threshold, used to exercise the fee gate. -/
def poolAtThreshold : Pool :=
  { emptyPool 5 with transactionListSize := 600016 }

/-- Witness for C8: at an occupancy above the fee threshold, a zero-fee
candidate is rejected with `lowFees` and the pool is unchanged; the same
candidate against an empty pool (zero required fee) is not rejected on
fee grounds. -/
theorem C8_witness :
    acceptTransactionSet envC8 [mkTx 3 [] [30] 0 50] poolAtThreshold =
      (.error .lowFees, poolAtThreshold) ∧
    (acceptTransactionSet envC8 [mkTx 3 [] [30] 0 50] (emptyPool 5)).1 ≠
      .error .lowFees :=
  ⟨((C8_fee_gate.1 envC8 [mkTx 3 [] [30] 0 50] poolAtThreshold 1000
      (by decide) (by decide) (by rfl)).1 (by decide)),
   ((C8_fee_gate.1 envC8 [mkTx 3 [] [30] 0 50] (emptyPool 5) 1000
      (by decide) (by decide) (by rfl)).2 (by rfl) (by decide))⟩

/-! ## Characterisation of the install step -/

theorem alookup_foldl_ains_const_of_some {V : Type} (oids : List ℕ) (ss : V)
    (m : List (ℕ × V)) (oid : ℕ) (h : alookup m oid = some ss) :
    alookup (oids.foldl (fun m o => ains o ss m) m) oid = some ss := by
  induction oids generalizing m with
  | nil => exact h
  | cons o rest ih =>
    simp only [List.foldl_cons]
    apply ih
    by_cases ho : oid = o
    · subst ho; exact alookup_ains_self _ _ _
    · rw [alookup_ains_ne _ _ ho]; exact h

theorem alookup_foldl_ains_const_mem {V : Type} [DecidableEq V] (oids : List ℕ) (ss : V)
    (m : List (ℕ × V)) (oid : ℕ) (h : oid ∈ oids) :
    alookup (oids.foldl (fun m o => ains o ss m) m) oid = some ss := by
  induction oids generalizing m with
  | nil => simp at h
  | cons o rest ih =>
    simp only [List.foldl_cons]
    by_cases ho : oid = o
    · subst ho
      exact alookup_foldl_ains_const_of_some _ _ _ _ (alookup_ains_self _ _ _)
    · refine ih _ ?_
      rcases List.mem_cons.mp h with he | hm
      · exact absurd he ho
      · exact hm

theorem alookup_heights_foldl_some (ss : List Tx) (bh : ℕ) (h0 : List (ℕ × ℕ))
    (k v : ℕ) (h : alookup h0 k = some v) :
    alookup (ss.foldl
      (fun m t => if alookup m t.id = none then ains t.id bh m else m) h0) k = some v := by
  induction ss generalizing h0 with
  | nil => exact h
  | cons u rest ih =>
    simp only [List.foldl_cons]
    apply ih
    by_cases hc : alookup h0 u.id = none
    · rw [if_pos hc]
      by_cases hk : k = u.id
      · subst hk; rw [h] at hc; simp at hc
      · rw [alookup_ains_ne _ _ hk]; exact h
    · rw [if_neg hc]; exact h

theorem alookup_heights_foldl_new (ss : List Tx) (bh : ℕ) (h0 : List (ℕ × ℕ))
    (t : Tx) (hmem : t ∈ ss) (h : alookup h0 t.id = none) :
    alookup (ss.foldl
      (fun m t => if alookup m t.id = none then ains t.id bh m else m) h0) t.id =
      some bh := by
  induction ss generalizing h0 with
  | nil => simp at hmem
  | cons u rest ih =>
    simp only [List.foldl_cons]
    by_cases hid : u.id = t.id
    · rw [hid, if_pos (by rw [h])]
      exact alookup_heights_foldl_some _ _ _ _ _ (hid ▸ alookup_ains_self _ _ _)
    · have hmem' : t ∈ rest := by
        rcases List.mem_cons.mp hmem with he | hm
        · exact absurd (he ▸ rfl) hid
        · exact hm
      apply ih _ hmem'
      by_cases hc : alookup h0 u.id = none
      · rw [if_pos hc, alookup_ains_ne _ _ (fun hh => hid hh.symm)]; exact h
      · rw [if_neg hc]; exact h

theorem evictAll_size (ssl : List SetID) (tp : Pool) (hnd : ssl.Nodup) :
    (evictAll ssl tp).transactionListSize = tp.transactionListSize -
      (ssl.map (fun s => encLenSet ((alookup tp.transactionSets s).getD []))).sum := by
  induction ssl generalizing tp with
  | nil => simp [evictAll]
  | cons s rest ih =>
    simp only [evictAll, List.map_cons, List.sum_cons]
    rw [ih _ (List.nodup_cons.mp hnd).2]
    have hlk : ∀ s' ∈ rest,
        alookup (aerase s tp.transactionSets) s' = alookup tp.transactionSets s' := by
      intro s' hs'
      exact alookup_aerase_ne _ (fun h => (List.nodup_cons.mp hnd).1 (h ▸ hs'))
    have hmap : rest.map (fun s' =>
        encLenSet ((alookup (aerase s tp.transactionSets) s').getD [])) =
        rest.map (fun s' => encLenSet ((alookup tp.transactionSets s').getD [])) := by
      apply List.map_congr_left
      intro s' hs'
      rw [hlk s' hs']
    simp only [hmap]
    ring

/-- The post-state of a successful `installPool` over a given base pool:
registry and diff entries for the new id, index entries for exactly the
given object list, the size increment, height preservation and fresh
height recording. -/
theorem installPool_post (ss : List Tx) (cc : Diff) (oids : List ℕ) (tp : Pool) :
    alookup (installPool ss cc oids tp).transactionSets ss = some ss ∧
    alookup (installPool ss cc oids tp).transactionSetDiffs ss = some cc ∧
    (∀ oid ∈ oids, alookup (installPool ss cc oids tp).knownObjects oid = some ss) ∧
    (installPool ss cc oids tp).transactionListSize =
      tp.transactionListSize + encLenSet ss ∧
    (∀ k v : ℕ, alookup tp.transactionHeights k = some v →
      alookup (installPool ss cc oids tp).transactionHeights k = some v) ∧
    (∀ t ∈ ss, alookup tp.transactionHeights t.id = none →
      alookup (installPool ss cc oids tp).transactionHeights t.id =
        some tp.blockHeight) ∧
    (installPool ss cc oids tp).blockHeight = tp.blockHeight := by
  refine ⟨alookup_ains_self _ _ _, alookup_ains_self _ _ _, ?_, rfl, ?_, ?_, rfl⟩
  · intro oid hoid
    exact alookup_foldl_ains_const_mem _ _ _ _ hoid
  · intro k v h
    exact alookup_heights_foldl_some _ _ _ _ _ h
  · intro t ht h
    exact alookup_heights_foldl_new _ _ _ _ ht h

/-- Post-state of a successful conflict-free submission. -/
theorem accept_conflictFree_post :
    ∀ (env : Env) (ts : List Tx) (tp : Pool) (ss : List Tx) (tp' : Pool),
      acceptTransactionSet env ts tp = (.ok ss, tp') →
      (findConflicts tp
        (relatedObjectIDs (ts.filter (fun t => !env.confirmed t.id)))).isEmpty = true →
      ss = ts.filter (fun t => !env.confirmed t.id) ∧
      alookup tp'.transactionSets ss = some ss ∧
      (∃ cc, env.txnFn ss = .ok cc ∧
        alookup tp'.transactionSetDiffs ss = some cc) ∧
      (∀ oid ∈ relatedObjectIDs ss, alookup tp'.knownObjects oid = some ss) ∧
      tp'.transactionListSize = tp.transactionListSize + encLenSet ss ∧
      (∀ k v : ℕ, alookup tp.transactionHeights k = some v →
        alookup tp'.transactionHeights k = some v) ∧
      (∀ t ∈ ss, alookup tp.transactionHeights t.id = none →
        alookup tp'.transactionHeights t.id = some tp.blockHeight) := by
  intro env ts tp ss tp' hacc hnc
  have h0 : ts.isEmpty = false := by
    cases ts with
    | nil => rw [acceptTransactionSet] at hacc; simp at hacc
    | cons a l => rfl
  rw [acceptTransactionSet] at hacc
  simp only [h0, Bool.false_eq_true, if_false] at hacc
  by_cases h1 : (ts.filter (fun t => !env.confirmed t.id)).isEmpty
  · simp [h1] at hacc
  · simp only [h1, Bool.false_eq_true, if_false] at hacc
    cases hc : checkTransactionSetComposition env tp
        (ts.filter (fun t => !env.confirmed t.id)) with
    | error e => rw [hc] at hacc; simp at hacc
    | ok s =>
      rw [hc] at hacc
      by_cases hf : requiredFeesToExtendTpool tp * (s : ℤ) >
          setFees (ts.filter (fun t => !env.confirmed t.id))
      · simp [hf] at hacc
      · simp only [if_neg hf] at hacc
        rw [hnc] at hacc
        simp only [if_true] at hacc
        cases ht : env.txnFn (ts.filter (fun t => !env.confirmed t.id)) with
        | error e => rw [ht] at hacc; simp at hacc
        | ok cc =>
          rw [ht] at hacc
          simp only [Prod.mk.injEq, Except.ok.injEq] at hacc
          obtain ⟨hss, htp'⟩ := hacc
          subst htp'
          subst hss
          obtain ⟨p1, p2, p3, p4, p5, p6, _⟩ := installPool_post
            (ts.filter (fun t => !env.confirmed t.id)) cc
            (relatedObjectIDs (ts.filter (fun t => !env.confirmed t.id))) tp
          exact ⟨rfl, p1, ⟨cc, ht, p2⟩, p3, p4, p5, p6⟩

/-- Post-state of a successful merge step of the conflict resolver. -/
theorem resolveMerge_post :
    ∀ (env : Env) (ds : List Tx) (cm : List (ℕ × SetID)) (tp : Pool) (ss : List Tx)
      (tp' : Pool),
      resolveMerge env ds cm tp = (.ok ss, tp') →
      ss = mergeSuperset tp cm ds ∧
      alookup tp'.transactionSets ss = some ss ∧
      (∃ cc, env.txnFn ss = .ok cc ∧
        alookup tp'.transactionSetDiffs ss = some cc ∧
        (∀ oid ∈ diffOids cc, alookup tp'.knownObjects oid = some ss)) ∧
      tp'.transactionListSize = tp.transactionListSize -
        ((dedupFirst (cm.map Prod.snd)).map
          (fun s => encLenSet ((alookup tp.transactionSets s).getD []))).sum +
        encLenSet ss ∧
      (∀ k v : ℕ, alookup tp.transactionHeights k = some v →
        alookup tp'.transactionHeights k = some v) ∧
      (∀ t ∈ ss, alookup tp.transactionHeights t.id = none →
        alookup tp'.transactionHeights t.id = some tp.blockHeight) := by
  intro env ds cm tp ss tp' hrm
  rw [resolveMerge] at hrm
  cases hc : checkTransactionSetComposition env tp (mergeSuperset tp cm ds) with
  | error e => rw [hc] at hrm; simp at hrm
  | ok s =>
    rw [hc] at hrm
    by_cases hf : requiredFeesToExtendTpool tp * (s : ℤ) >
        setFees (mergeSuperset tp cm ds)
    · simp [hf] at hrm
    · simp only [if_neg hf] at hrm
      cases ht : env.txnFn (mergeSuperset tp cm ds) with
      | error e => rw [ht] at hrm; simp at hrm
      | ok cc =>
        rw [ht] at hrm
        simp only [Prod.mk.injEq, Except.ok.injEq] at hrm
        obtain ⟨hss, htp'⟩ := hrm
        subst htp'
        subst hss
        obtain ⟨hko, hh, hbh⟩ :=
          evictAll_components (dedupFirst (cm.map Prod.snd)) tp
        obtain ⟨p1, p2, p3, p4, p5, p6, _⟩ := installPool_post
          (mergeSuperset tp cm ds) cc (diffOids cc)
          (evictAll (dedupFirst (cm.map Prod.snd)) tp)
        refine ⟨rfl, p1, ⟨cc, ht, p2, p3⟩, ?_, ?_, ?_⟩
        · rw [p4, evictAll_size _ _ (nodup_dedupFirst _)]
        · intro k v h
          exact p5 k v (by rw [hh]; exact h)
        · intro t htm h
          rw [hbh] at p6
          exact p6 t htm (by rw [hh]; exact h)

/-- C4, amended: after every successful submission the admitted set is in
the registry together with the validation diff, `totalPooledBytes` is
incremented by the set's encoded size (on the conflict path after the
evicted sets' sizes are subtracted), existing first-seen heights are
untouched and the current height is recorded for exactly the admitted
transactions that had none. The object index, however, is fed from
different sources on the two paths: the conflict-free path indexes the
admitted candidate's related objects (`relatedObjectIDs`), while only the
conflict-resolution path indexes the objects touched by the diff. -/
theorem C4_amended_install_step :
    (∀ (env : Env) (ts : List Tx) (tp : Pool) (ss : List Tx) (tp' : Pool),
      acceptTransactionSet env ts tp = (.ok ss, tp') →
      (findConflicts tp
        (relatedObjectIDs (ts.filter (fun t => !env.confirmed t.id)))).isEmpty = true →
      ss = ts.filter (fun t => !env.confirmed t.id) ∧
      alookup tp'.transactionSets ss = some ss ∧
      (∃ cc, env.txnFn ss = .ok cc ∧
        alookup tp'.transactionSetDiffs ss = some cc) ∧
      (∀ oid ∈ relatedObjectIDs ss, alookup tp'.knownObjects oid = some ss) ∧
      tp'.transactionListSize = tp.transactionListSize + encLenSet ss ∧
      (∀ k v : ℕ, alookup tp.transactionHeights k = some v →
        alookup tp'.transactionHeights k = some v) ∧
      (∀ t ∈ ss, alookup tp.transactionHeights t.id = none →
        alookup tp'.transactionHeights t.id = some tp.blockHeight)) ∧
    (∀ (env : Env) (ds : List Tx) (cm : List (ℕ × SetID)) (tp : Pool) (ss : List Tx)
      (tp' : Pool),
      resolveMerge env ds cm tp = (.ok ss, tp') →
      ss = mergeSuperset tp cm ds ∧
      alookup tp'.transactionSets ss = some ss ∧
      (∃ cc, env.txnFn ss = .ok cc ∧
        alookup tp'.transactionSetDiffs ss = some cc ∧
        (∀ oid ∈ diffOids cc, alookup tp'.knownObjects oid = some ss)) ∧
      tp'.transactionListSize = tp.transactionListSize -
        ((dedupFirst (cm.map Prod.snd)).map
          (fun s => encLenSet ((alookup tp.transactionSets s).getD []))).sum +
        encLenSet ss ∧
      (∀ k v : ℕ, alookup tp.transactionHeights k = some v →
        alookup tp'.transactionHeights k = some v) ∧
      (∀ t ∈ ss, alookup tp.transactionHeights t.id = none →
        alookup tp'.transactionHeights t.id = some tp.blockHeight)) :=
  ⟨accept_conflictFree_post, resolveMerge_post⟩

/-- The environment of the C4 counterexample: the consensus diff reports
an object (99) that is not among the candidate's related objects. -/
def envC4 : Env :=
  { isStandard := fun _ => .ok 10
    confirmed := fun _ => false
    txnFn := fun _ => .ok ⟨[99], [], []⟩ }

/-- Counterexample to C4 as stated: on the conflict-free path the code
indexes `relatedObjectIDs` of the candidate, not the objects touched by
the diff; object 99 is touched by the stored diff of the admitted set yet
is not mapped to the new set id in `knownObjects`. -/
theorem C4_counterexample :
    (acceptTransactionSet envC4 [mkTx 4 [] [40] 0 50] (emptyPool 0)).1 =
      .ok [mkTx 4 [] [40] 0 50] ∧
    alookup (acceptTransactionSet envC4 [mkTx 4 [] [40] 0 50]
        (emptyPool 0)).2.transactionSetDiffs [mkTx 4 [] [40] 0 50] =
      some ⟨[99], [], []⟩ ∧
    99 ∈ diffOids ⟨[99], [], []⟩ ∧
    ¬ alookup (acceptTransactionSet envC4 [mkTx 4 [] [40] 0 50]
        (emptyPool 0)).2.knownObjects 99 = some [mkTx 4 [] [40] 0 50] := by
  refine ⟨rfl, by decide, by decide, by decide⟩

/-- Witness for the amended C4: both branches applied at concrete runs. -/
theorem C4_witness :
    ((mkTx 4 [] [40] 0 50 ∈ ([mkTx 4 [] [40] 0 50] : List Tx)) ∧
      alookup (acceptTransactionSet envC4 [mkTx 4 [] [40] 0 50]
          (emptyPool 3)).2.transactionHeights (mkTx 4 [] [40] 0 50).id = some 3) ∧
    alookup (acceptTransactionSet envC4 [mkTx 4 [] [40] 0 50]
        (emptyPool 3)).2.transactionSets [mkTx 4 [] [40] 0 50] =
      some [mkTx 4 [] [40] 0 50] := by
  have H := (C4_amended_install_step.1 envC4 [mkTx 4 [] [40] 0 50] (emptyPool 3)
    [mkTx 4 [] [40] 0 50]
    (acceptTransactionSet envC4 [mkTx 4 [] [40] 0 50] (emptyPool 3)).2
    (by rfl) (by rfl))
  refine ⟨⟨by decide, ?_⟩, ?_⟩
  · exact H.2.2.2.2.2.2 (mkTx 4 [] [40] 0 50) (by decide) (by decide)
  · exact H.2.1

/-! ## Ordering of the merged superset -/

/-- The pooled transaction creating output 10. -/
def txA5 : Tx := mkTx 1 [] [10] 0 50

/-- A candidate transaction unrelated to the pool. -/
def txB5 : Tx := mkTx 2 [] [20] 0 50

/-- A candidate transaction spending output 10 created by `txA5`. -/
def txC5 : Tx := mkTx 3 [10] [30] 0 50

/-- A pool holding the single set `{txA5}` with its output indexed. -/
def poolC5 : Pool :=
  { transactionSets := [([txA5], [txA5])]
    knownObjects := [(10, [txA5])]
    transactionSetDiffs := [([txA5], ⟨[10], [], []⟩)]
    transactionListSize := 58
    transactionHeights := [(1, 0)]
    blockHeight := 1 }

/-- C5: a successful merge returns the concatenation of the registered
conflicting sets (each appearing exactly once and contiguously, in their
stored order) followed by the deduplicated candidate appended last, so
every candidate transaction comes after every conflicting-set
transaction; concretely, pool set `{A}` and candidate `{B, C}` with `C`
spending an output of `A` merge to `[A, B, C]`, placing `A` before `C`. -/
theorem C5_merge_ordering :
    (∀ (env : Env) (ds : List Tx) (cm : List (ℕ × SetID)) (tp : Pool) (ss : List Tx)
      (tp' : Pool), resolveMerge env ds cm tp = (.ok ss, tp') →
      ss = (dedupFirst (cm.map Prod.snd)).flatMap
          (fun s => (alookup tp.transactionSets s).getD []) ++ ds ∧
      (∀ u ∈ (dedupFirst (cm.map Prod.snd)).flatMap
          (fun s => (alookup tp.transactionSets s).getD []),
        ∃ s l, s ∈ cm.map Prod.snd ∧ alookup tp.transactionSets s = some l ∧ u ∈ l) ∧
      (∀ s ∈ dedupFirst (cm.map Prod.snd), ∃ l1 l2,
        (dedupFirst (cm.map Prod.snd)).flatMap
          (fun s => (alookup tp.transactionSets s).getD []) =
          l1 ++ (alookup tp.transactionSets s).getD [] ++ l2)) ∧
    (acceptTransactionSet envTrivial [txB5, txC5] poolC5).1 =
      .ok [txA5, txB5, txC5] := by
  constructor
  · intro env ds cm tp ss tp' hrm
    have hshape := (resolveMerge_post env ds cm tp ss tp' hrm).1
    refine ⟨hshape, ?_, ?_⟩
    · intro u hu
      rw [List.mem_flatMap] at hu
      obtain ⟨s, hs, hu⟩ := hu
      rw [mem_dedupFirst] at hs
      cases hl : alookup tp.transactionSets s with
      | none => rw [hl] at hu; simp at hu
      | some l =>
        rw [hl] at hu
        exact ⟨s, l, hs, hl, by simpa using hu⟩
    · intro s hs
      obtain ⟨l1', l2', hsplit⟩ := List.append_of_mem hs
      refine ⟨l1'.flatMap (fun s => (alookup tp.transactionSets s).getD []),
        l2'.flatMap (fun s => (alookup tp.transactionSets s).getD []), ?_⟩
      rw [hsplit]
      simp
  · rfl

/-- Witness for C5: the general ordering statement applied to the
concrete merge of pool set `{txA5}` with candidate `[txB5, txC5]`. -/
theorem C5_witness :
    [txA5, txB5, txC5] =
      (dedupFirst ([((1 : ℕ), [txA5])].map Prod.snd)).flatMap
        (fun s => (alookup poolC5.transactionSets s).getD []) ++ [txB5, txC5] :=
  (C5_merge_ordering.1 envTrivial [txB5, txC5] [(1, [txA5])] poolC5
    [txA5, txB5, txC5]
    (resolveMerge envTrivial [txB5, txC5] [(1, [txA5])] poolC5).2 (by rfl)).1

/-! ## Resubmission of an identical set -/

/-- C7, amended: if a candidate was admitted on the conflict-free path
(its filtered form is then a key of the registry), submitting the
identical candidate again with no intervening confirmations fails with
`duplicate` at the composition check and leaves the pool unchanged. When
the first submission was instead merged into a superset, the second call
is not guaranteed to yield `duplicate`: with the pool grown past the fee
threshold it can fail with `lowFees` first (`C7_counterexample`). -/
theorem C7_amended_idempotence :
    ∀ (env : Env) (ts : List Tx) (tp : Pool) (ss : List Tx) (tp' : Pool),
      acceptTransactionSet env ts tp = (.ok ss, tp') →
      (findConflicts tp
        (relatedObjectIDs (ts.filter (fun t => !env.confirmed t.id)))).isEmpty = true →
      acceptTransactionSet env ts tp' = (.error .duplicate, tp') := by
  intro env ts tp ss tp' hacc hnc
  obtain ⟨hss, hreg, _⟩ := accept_conflictFree_post env ts tp ss tp' hacc hnc
  have h0 : ts.isEmpty = false := by
    cases ts with
    | nil => rw [acceptTransactionSet] at hacc; simp at hacc
    | cons a l => rfl
  have h1 : (ts.filter (fun t => !env.confirmed t.id)).isEmpty = false := by
    by_cases h : (ts.filter (fun t => !env.confirmed t.id)).isEmpty
    · rw [acceptTransactionSet] at hacc
      simp [h0, h] at hacc
    · simpa using h
  rw [acceptTransactionSet]
  simp only [h0, Bool.false_eq_true, if_false, h1]
  rw [checkTransactionSetComposition,
    if_pos (by rw [← hss, hreg]; rfl)]

/-- A pooled transaction of encoded length 300000. -/
def txA7 : Tx := mkTx 1 [] [10] 0 300000

/-- An unpooled transaction of encoded length 300000, unrelated to the
pool. -/
def txC7 : Tx := mkTx 3 [] [30] 0 300000

/-- An environment whose validation diff reports exactly the related
objects of the validated set. -/
def envC7 : Env :=
  { isStandard := fun _ => .ok 1000
    confirmed := fun _ => false
    txnFn := fun l => .ok ⟨relatedObjectIDs l, [], []⟩ }

/-- A pool holding the single set `{txA7}`, just below the fee
threshold. -/
def poolC7 : Pool :=
  { transactionSets := [([txA7], [txA7])]
    knownObjects := [(10, [txA7])]
    transactionSetDiffs := [([txA7], ⟨[10], [], []⟩)]
    transactionListSize := 300008
    transactionHeights := [(1, 0)]
    blockHeight := 1 }

/-- Counterexample to C7 as stated: the candidate `[txA7, txC7]` is
merged by the resolver (the duplicate `txA7` is pruned and `[txC7]` is
installed as its own set), which pushes the pool size past the fee
threshold; resubmitting the identical candidate then fails with
`lowFees`, not with `duplicate`. -/
theorem C7_counterexample :
    (acceptTransactionSet envC7 [txA7, txC7] poolC7).1 = .ok [txC7] ∧
    (acceptTransactionSet envC7 [txA7, txC7]
        (acceptTransactionSet envC7 [txA7, txC7] poolC7).2).1 = .error .lowFees ∧
    Err.lowFees ≠ Err.duplicate :=
  ⟨rfl, rfl, by decide⟩

/-- Witness for the amended C7: a concrete conflict-free admission
followed by an identical resubmission that fails with `duplicate` and
leaves the pool unchanged. -/
theorem C7_witness :
    acceptTransactionSet envTrivial [tx0]
        (acceptTransactionSet envTrivial [tx0] (emptyPool 0)).2 =
      (.error .duplicate, (acceptTransactionSet envTrivial [tx0] (emptyPool 0)).2) :=
  C7_amended_idempotence envTrivial [tx0] (emptyPool 0) [tx0]
    (acceptTransactionSet envTrivial [tx0] (emptyPool 0)).2 (by rfl) (by rfl)

/-! ## Termination depth of the conflict resolver -/

/-- The deduplicated candidate computed by `handleConflicts`: the
candidate transactions whose ids are not claimed by any conflicting
set. -/
def dedupCandidate (tp : Pool) (conflicts : List SetID) (ts : List Tx) : List Tx :=
  ts.filter (fun t => (alookup (buildConflictMap tp conflicts) t.id).isNone)

theorem mem_akeys_ains {K V : Type} [DecidableEq K] {m : List (K × V)} {k' : K}
    (k : K) (v : V) (h : k' ∈ akeys m) : k' ∈ akeys (ains k v m) := by
  by_cases hk : k' = k
  · subst hk; simp [ains, akeys]
  · simp only [ains, akeys, List.map_cons, List.mem_cons]
    right
    obtain ⟨p, hp, hpk⟩ := List.mem_map.mp h
    exact List.mem_map.mpr ⟨p, List.mem_filter.mpr ⟨hp, by simp [hpk, hk]⟩, hpk⟩

theorem akeys_inner_preserve (l : List Tx) (c : SetID) (m : List (ℕ × SetID)) (k : ℕ)
    (h : k ∈ akeys m) :
    k ∈ akeys (l.foldl (fun m' t => ains t.id c m') m) := by
  induction l generalizing m with
  | nil => exact h
  | cons u rest ih =>
    simp only [List.foldl_cons]
    exact ih _ (mem_akeys_ains _ _ h)

theorem akeys_inner_mem (l : List Tx) (c : SetID) (m : List (ℕ × SetID)) (t : Tx)
    (ht : t ∈ l) :
    t.id ∈ akeys (l.foldl (fun m' t => ains t.id c m') m) := by
  induction l generalizing m with
  | nil => simp at ht
  | cons u rest ih =>
    simp only [List.foldl_cons]
    rcases List.mem_cons.mp ht with he | hm
    · subst he
      exact akeys_inner_preserve _ _ _ _ (by simp [ains, akeys])
    · exact ih _ hm

theorem akeys_outer_preserve (cs : List SetID) (tp : Pool) (m : List (ℕ × SetID))
    (k : ℕ) (h : k ∈ akeys m) :
    k ∈ akeys (cs.foldl (fun m conflict =>
      ((alookup tp.transactionSets conflict).getD []).foldl
        (fun m' t => ains t.id conflict m') m) m) := by
  induction cs generalizing m with
  | nil => exact h
  | cons c rest ih =>
    simp only [List.foldl_cons]
    exact ih _ (akeys_inner_preserve _ _ _ _ h)

theorem akeys_buildConflictMap_mem (tp : Pool) (conflicts : List SetID) (s : SetID)
    (l : List Tx) (t : Tx) (hs : s ∈ conflicts)
    (hl : alookup tp.transactionSets s = some l) (ht : t ∈ l) :
    t.id ∈ akeys (buildConflictMap tp conflicts) := by
  obtain ⟨c1, c2, rfl⟩ := List.append_of_mem hs
  rw [buildConflictMap, List.foldl_append, List.foldl_cons]
  apply akeys_outer_preserve
  apply akeys_inner_mem
  rw [hl]
  exact ht

/-- Every entry of the conflict map additionally names a set id drawn
from the conflict list it was built from. -/
theorem mem_buildConflictMap_conflicts (tp : Pool) (conflicts : List SetID)
    (p : ℕ × SetID) (h : p ∈ buildConflictMap tp conflicts) :
    p.2 ∈ conflicts ∧
      ∃ l, alookup tp.transactionSets p.2 = some l ∧ p.1 ∈ l.map Tx.id := by
  suffices H : ∀ (cs : List SetID) (m : List (ℕ × SetID)),
      p ∈ cs.foldl (fun m conflict =>
        ((alookup tp.transactionSets conflict).getD []).foldl
          (fun m' t => ains t.id conflict m') m) m →
      p ∈ m ∨ (p.2 ∈ cs ∧
        ∃ l, alookup tp.transactionSets p.2 = some l ∧ p.1 ∈ l.map Tx.id) by
    rcases H conflicts [] h with hm | hg
    · simp at hm
    · exact hg
  intro cs
  induction cs with
  | nil => intro m hm; exact Or.inl hm
  | cons c rest ih =>
    intro m hm
    simp only [List.foldl_cons] at hm
    rcases ih _ hm with hin | hg
    · rcases mem_foldl_ains_inner _ _ _ _ hin with hm0 | ⟨hc, hid⟩
      · exact Or.inl hm0
      · right
        cases hl : alookup tp.transactionSets c with
        | none => rw [hl] at hid; simp at hid
        | some l =>
          rw [hl] at hid
          exact ⟨by rw [hc]; exact List.mem_cons_self _ _, l, by rw [hc, hl],
            by simpa using hid⟩
    · exact Or.inr ⟨List.mem_cons_of_mem _ hg.1, hg.2⟩

/-- C3: for every candidate and every conflict list drawn from the pool
(the `knownObjects` hits of the candidate's related objects, which is the
only way the code produces one), the deduplicated remainder shares no
transaction id with any recomputed conflicting set — the remainder's
related objects are a subset of the candidate's, so the recomputed
conflicts are among the original ones, whose transaction ids the
remainder already avoids. Hence the recursive call's own deduplication
removes nothing, and one unfolding after the recursive call the resolver
is already at its non-recursive merge step. -/
theorem C3_resolver_recursion (env : Env) (tp : Pool) (ts : List Tx)
    (conflicts : List SetID)
    (hconf : conflicts = findConflicts tp (relatedObjectIDs ts)) :
    dedupCandidate tp
        (findConflicts tp (relatedObjectIDs (dedupCandidate tp conflicts ts)))
        (dedupCandidate tp conflicts ts) =
      dedupCandidate tp conflicts ts ∧
    (∀ fuel : ℕ, (dedupCandidate tp conflicts ts).isEmpty = false →
      (dedupCandidate tp conflicts ts).length < ts.length →
      handleConflicts env (fuel + 2) ts conflicts tp =
        resolveMerge env (dedupCandidate tp conflicts ts)
          (buildConflictMap tp
            (findConflicts tp (relatedObjectIDs (dedupCandidate tp conflicts ts))))
          tp) := by
  have key : ∀ t ∈ dedupCandidate tp conflicts ts,
      alookup (buildConflictMap tp
        (findConflicts tp (relatedObjectIDs (dedupCandidate tp conflicts ts)))) t.id =
        none := by
    intro t ht
    by_contra hne
    have hsome : (alookup (buildConflictMap tp
        (findConflicts tp (relatedObjectIDs (dedupCandidate tp conflicts ts)))) t.id).isSome := by
      cases hcase : alookup (buildConflictMap tp
          (findConflicts tp (relatedObjectIDs (dedupCandidate tp conflicts ts)))) t.id with
      | none => exact absurd hcase hne
      | some x => rfl
    have hkeys := alookup_isSome_iff.mp hsome
    obtain ⟨p, hp, hfst⟩ := List.mem_map.mp hkeys
    obtain ⟨hpc2, l, hl, hid⟩ := mem_buildConflictMap_conflicts tp _ p hp
    obtain ⟨oid, hoidds, hko⟩ := List.mem_filterMap.mp hpc2
    have hoidts : oid ∈ relatedObjectIDs ts := by
      rw [relatedObjectIDs, mem_dedupFirst, List.mem_flatMap]
      rw [relatedObjectIDs, mem_dedupFirst, List.mem_flatMap] at hoidds
      obtain ⟨u, hu, huo⟩ := hoidds
      exact ⟨u, List.mem_of_mem_filter hu, huo⟩
    have hsconf : p.2 ∈ conflicts := by
      rw [hconf]
      exact List.mem_filterMap.mpr ⟨oid, hoidts, hko⟩
    obtain ⟨u', hu', huid⟩ := List.mem_map.mp hid
    have hkey1 : t.id ∈ akeys (buildConflictMap tp conflicts) := by
      rw [← hfst, ← huid]
      exact akeys_buildConflictMap_mem tp conflicts p.2 l u' hsconf hl hu'
    have hnone1 := (List.mem_filter.mp ht).2
    rw [Option.isNone_iff_eq_none] at hnone1
    have habs : t.id ∉ akeys (buildConflictMap tp conflicts) := by
      rw [← alookup_eq_none]
      simpa using hnone1
    exact habs hkey1
  constructor
  · apply List.filter_eq_self.mpr
    intro t ht
    rw [key t ht]
    rfl
  · intro fuel hne hlt
    rw [handleConflicts]
    have hds : ts.filter
        (fun t => (alookup (buildConflictMap tp conflicts) t.id).isNone) =
        dedupCandidate tp conflicts ts := rfl
    simp only [hds, hne, Bool.false_eq_true, if_false, if_pos hlt]
    rw [handleConflicts]
    have hds2 : (dedupCandidate tp conflicts ts).filter
        (fun t => (alookup (buildConflictMap tp
          (findConflicts tp (relatedObjectIDs (dedupCandidate tp conflicts ts)))) t.id).isNone) =
        dedupCandidate tp conflicts ts := by
      apply List.filter_eq_self.mpr
      intro t ht
      rw [key t ht]
      rfl
    simp only [hds2, hne, Bool.false_eq_true, if_false, lt_irrefl, if_neg]

/-- A candidate transaction unrelated to the pool of `poolC5`. -/
def txC3 : Tx := mkTx 3 [] [30] 0 50

/-- Witness for C3: the concrete scenario of pool set `{txA5}` and
candidate `[txA5, txC3]`: the duplicate `txA5` is pruned, the recomputed
conflict list of `[txC3]` is empty, the second deduplication removes
nothing, and the run reaches the merge step right after the single
recursive call. -/
theorem C3_witness :
    dedupCandidate poolC5
        (findConflicts poolC5 (relatedObjectIDs
          (dedupCandidate poolC5 [[txA5]] [txA5, txC3])))
        (dedupCandidate poolC5 [[txA5]] [txA5, txC3]) =
      dedupCandidate poolC5 [[txA5]] [txA5, txC3] ∧
    handleConflicts envTrivial 2 [txA5, txC3] [[txA5]] poolC5 =
      resolveMerge envTrivial (dedupCandidate poolC5 [[txA5]] [txA5, txC3])
        (buildConflictMap poolC5
          (findConflicts poolC5 (relatedObjectIDs
            (dedupCandidate poolC5 [[txA5]] [txA5, txC3]))))
        poolC5 := by
  have H := C3_resolver_recursion envTrivial poolC5 [txA5, txC3] [[txA5]]
    (by decide)
  exact ⟨H.1, H.2 0 (by decide) (by decide)⟩

end SiaSat
